import Mathlib

/-!
# Verification of the wiktextract section-walker / entry-accumulator core

This file gives a shallow embedding, in Lean 4, of the scope-accumulation and
merge machinery of `src/wiktextract/extractor/en/page.py` (the functions
`merge_base`, `push_sense`, `push_pos`, `push_etym`, the section-classification
dispatch of `process_children`, the tail of `parse_part_of_speech`, the
single-child-sublist handling of `parse_sense_node` / `process_gloss_contents`,
and the final merge pass of `parse_language`), of the heading number-stripping
of `src/wiktextract/extractor/ko/page.py` (`parse_section`), and of
`process_translation_list_item` of `src/wiktextract/extractor/zh/translation.py`.

Python dictionaries are modelled as insertion-ordered association lists over a
value type `Val` (strings, integers, lists, dictionaries); raising an exception
is modelled by `Option`.  Logging (`wxr.wtp.warning` / `debug`) is modelled by
an accumulated list of warning keys where a claim depends on it, and omitted
where none does.
-/

namespace Wx

/-- Model of a Python value as stored in the accumulator dictionaries:
strings, integers, lists, and nested dictionaries. -/
inductive Val where
  | str (s : String)
  | num (n : Int)
  | list (xs : List Val)
  | dict (xs : List (String × Val))
  deriving Repr

/-- A Python dict, modelled as an insertion-ordered association list. -/
abbrev Dict := List (String × Val)

mutual

/-- Structural (deep) equality of values, matching Python `==` on these types. -/
def Val.beq : Val → Val → Bool
  | .str a, .str b => a == b
  | .num a, .num b => a == b
  | .list a, .list b => Val.beqList a b
  | .dict a, .dict b => Val.beqDict a b
  | _, _ => false

def Val.beqList : List Val → List Val → Bool
  | [], [] => true
  | a :: as, b :: bs => Val.beq a b && Val.beqList as bs
  | _, _ => false

def Val.beqDict : List (String × Val) → List (String × Val) → Bool
  | [], [] => true
  | (k, a) :: as, (l, b) :: bs => k == l && Val.beq a b && Val.beqDict as bs
  | _, _ => false

end

instance : BEq Val := ⟨Val.beq⟩

mutual

theorem Val.beq_refl : ∀ v : Val, Val.beq v v = true
  | .str _ => by simp [Val.beq]
  | .num _ => by simp [Val.beq]
  | .list xs => by simp [Val.beq, Val.beqList_refl xs]
  | .dict xs => by simp [Val.beq, Val.beqDict_refl xs]

theorem Val.beqList_refl : ∀ xs : List Val, Val.beqList xs xs = true
  | [] => rfl
  | x :: xs => by simp [Val.beqList, Val.beq_refl x, Val.beqList_refl xs]

theorem Val.beqDict_refl : ∀ xs : List (String × Val), Val.beqDict xs xs = true
  | [] => rfl
  | (k, v) :: xs => by simp [Val.beqDict, Val.beq_refl v, Val.beqDict_refl xs]

end

mutual

theorem Val.eq_of_beq : ∀ {a b : Val}, Val.beq a b = true → a = b
  | .str _, .str _, h => by simp [Val.beq] at h; simp [h]
  | .num _, .num _, h => by simp [Val.beq] at h; simp [h]
  | .list _, .list _, h => by
      simp only [Val.beq] at h
      exact congrArg Val.list (Val.eqList_of_beq h)
  | .dict _, .dict _, h => by
      simp only [Val.beq] at h
      exact congrArg Val.dict (Val.eqDict_of_beq h)
  | .str _, .num _, h => by simp [Val.beq] at h
  | .str _, .list _, h => by simp [Val.beq] at h
  | .str _, .dict _, h => by simp [Val.beq] at h
  | .num _, .str _, h => by simp [Val.beq] at h
  | .num _, .list _, h => by simp [Val.beq] at h
  | .num _, .dict _, h => by simp [Val.beq] at h
  | .list _, .str _, h => by simp [Val.beq] at h
  | .list _, .num _, h => by simp [Val.beq] at h
  | .list _, .dict _, h => by simp [Val.beq] at h
  | .dict _, .str _, h => by simp [Val.beq] at h
  | .dict _, .num _, h => by simp [Val.beq] at h
  | .dict _, .list _, h => by simp [Val.beq] at h

theorem Val.eqList_of_beq : ∀ {as bs : List Val}, Val.beqList as bs = true → as = bs
  | [], [], _ => rfl
  | a :: as, b :: bs, h => by
      simp only [Val.beqList, Bool.and_eq_true] at h
      rw [Val.eq_of_beq h.1, Val.eqList_of_beq h.2]
  | [], _ :: _, h => by simp [Val.beqList] at h
  | _ :: _, [], h => by simp [Val.beqList] at h

theorem Val.eqDict_of_beq :
    ∀ {as bs : List (String × Val)}, Val.beqDict as bs = true → as = bs
  | [], [], _ => rfl
  | (k, a) :: as, (l, b) :: bs, h => by
      simp only [Val.beqDict, Bool.and_eq_true] at h
      obtain ⟨⟨hk, hv⟩, ht⟩ := h
      rw [show k = l by simpa using hk, Val.eq_of_beq hv, Val.eqDict_of_beq ht]
  | [], _ :: _, h => by simp [Val.beqDict] at h
  | _ :: _, [], h => by simp [Val.beqDict] at h

end

instance : LawfulBEq Val where
  eq_of_beq := Val.eq_of_beq
  rfl := Val.beq_refl _

instance : DecidableEq Val := fun a b =>
  if h : Val.beq a b then .isTrue (Val.eq_of_beq h)
  else .isFalse (fun he => h (he ▸ Val.beq_refl a))

/-- `d[k]` lookup in a dict (first binding wins; our operations keep keys unique,
as Python dicts do). -/
def lookup (d : Dict) (k : String) : Option Val :=
  match d with
  | [] => none
  | (k', v) :: rest => if k' = k then some v else lookup rest k

/-- `k in d` for a Python dict. -/
def hasKey (d : Dict) (k : String) : Bool :=
  (lookup d k).isSome

/-- `d[k] = v` assignment: replaces an existing binding in place (Python dicts
keep the original insertion position on re-assignment), else appends. -/
def setKey (d : Dict) (k : String) (v : Val) : Dict :=
  match d with
  | [] => [(k, v)]
  | (k', v') :: rest => if k' = k then (k', v) :: rest else (k', v') :: setKey rest k v

/-- `d.pop(k)` / `del d[k]` (ignoring the returned value). -/
def removeKey (d : Dict) (k : String) : Dict :=
  match d with
  | [] => []
  | (k', v') :: rest => if k' = k then rest else (k', v') :: removeKey rest k

/-- Python truthiness of an optional value (`data.get(k)` patterns):
a missing key, empty string, zero, empty list and empty dict are falsy. -/
def truthy : Option Val → Bool
  | none => false
  | some (.str s) => s ≠ ""
  | some (.num n) => n ≠ 0
  | some (.list xs) => xs ≠ []
  | some (.dict xs) => xs ≠ []

/-- Python `list(v)`: a list yields its elements, a string its characters (as
one-character strings), a dict its keys; `list(n)` for an integer raises
`TypeError`, modelled as `none`. -/
def pyToList : Val → Option (List Val)
  | .list xs => some xs
  | .str s => some (s.data.map (fun c => .str (String.mk [c])))
  | .dict xs => some (xs.map (fun kv => .str kv.1))
  | .num _ => none

/-- Python `x in v` for a string `x`: list membership, substring test on a
string, key containment on a dict; `in` on an integer raises, modelled `none`. -/
def pyIn (x : String) : Val → Option Bool
  | .list xs => some (xs.contains (.str x))
  | .str s => some (decide (x.data <:+: s.data))
  | .dict d => some (hasKey d x)
  | .num _ => none

/-- `isinstance(v, (list, tuple))`. -/
def isListV : Val → Bool
  | .list _ => true
  | _ => false

/-- `v[k]` subscripting: only a dict supports string subscripts; a missing key
raises `KeyError`, a non-dict raises `TypeError` — both modelled as `none`. -/
def pySubscript (v : Val) (k : String) : Option Val :=
  match v with
  | .dict d => lookup d k
  | _ => none

/-- `complementary_pop(pron, key)` from `merge_base`: removes `key` from a dict
value if present and returns the value; on a non-dict value, Python would only
fail when the containment test succeeds (`.pop` is then called). -/
def complementaryPop (k : String) : Val → Option Val
  | .dict d => some (.dict (removeKey d k))
  | v => do
      let b ← pyIn k v
      if b then none else some v

/-- Modelled from the spec: `data_append` (wiktextract `datautils`, outside the
sources under review) appends one value to the list stored under `k`, creating
a fresh one-element list when the key is absent; appending to an existing
non-list value is an error. -/
def dataAppend (d : Dict) (k : String) (v : Val) : Option Dict :=
  match lookup d k with
  | none => some (setKey d k (.list [v]))
  | some (.list xs) => some (setKey d k (.list (xs ++ [v])))
  | some _ => none

/-- Modelled from the spec: `data_extend` extends the list stored under `k` by
the given values ("list-valued fields concatenate"); extending by an empty
collection leaves the record unchanged. -/
def dataExtend (d : Dict) (k : String) (vs : List Val) : Option Dict :=
  if vs = [] then some d else
  match lookup d k with
  | none => some (setKey d k (.list vs))
  | some (.list xs) => some (setKey d k (.list (xs ++ vs)))
  | some _ => none

/-!
## `merge_base` (en/page.py, `parse_language`)

The key-merge loop: each value of `base` is deep-copied (a no-op in this pure
value model; the heap model below addresses what the deep copy buys), missing
keys are inserted, equal values are skipped, a list on either side concatenates
`list(data[k]) + list(v)`, and any other conflict logs a warning — recorded
here as the offending key — while keeping the destination value.
-/

def mergeStep (acc : Dict × List String) (kv : String × Val) :
    Option (Dict × List String) :=
  let (data, ws) := acc
  let (k, v) := kv
  match lookup data k with
  | none => some (setKey data k v, ws)
  | some dv =>
    if dv = v then some (data, ws)
    else if isListV dv || isListV v then do
      let l1 ← pyToList dv
      let l2 ← pyToList v
      some (setKey data k (.list (l1 ++ l2)), ws)
    else
      some (data, ws ++ [k])

/-- A Python list comprehension `[f(s) for s in l if keep(s)]`: evaluates the
condition, then the expression, element by element. -/
def comprehend (keep : Val → Option Bool) (f : Val → Option Val) :
    List Val → Option (List Val)
  | [] => some []
  | s :: rest => do
      let b ← keep s
      if b then do
        let v ← f s
        let vs ← comprehend keep f rest
        pure (v :: vs)
      else comprehend keep f rest

/-- The per-sound condition of the first sound filter:
`"form" not in s or s["form"] in accepted`. -/
def formCond (accepted : List Val) (s : Val) : Option Bool := do
  let hasForm ← pyIn "form" s
  if hasForm then do
    let f ← pySubscript s "form"
    pure (accepted.contains f)
  else pure true

/-- First sound filter of `merge_base`: when the merged record has both
`sounds` and `word`, keep only sounds whose `form` annotation (if any) is the
record's word or one of its forms, and pop the `pos` key from every kept
sound. -/
def soundsFilter1 (data : Dict) : Option Dict :=
  if hasKey data "sounds" && hasKey data "word" then do
    let w ← lookup data "word"
    let formsV := (lookup data "forms").getD (.list [])
    let forms ← pyToList formsV
    let formVals ← forms.mapM (fun f => pySubscript f "form")
    let accepted := w :: formVals
    let soundsV ← lookup data "sounds"
    let els ← pyToList soundsV
    let kept ← comprehend (formCond accepted) (complementaryPop "pos") els
    pure (setKey data "sounds" (.list kept))
  else pure data

/-- The per-sound condition of the second sound filter:
`"pos" not in s or s["pos"] == data["pos"]`. -/
def posCond (p : Val) (s : Val) : Option Bool := do
  let hasPos ← pyIn "pos" s
  if hasPos then do
    let sp ← pySubscript s "pos"
    pure (sp == p)
  else pure true

/-- Second sound filter of `merge_base`: when the merged record has both
`sounds` and `pos`, keep only sounds whose `pos` annotation (if any) equals the
record's `pos`. -/
def soundsFilter2 (data : Dict) : Option Dict :=
  if hasKey data "sounds" && hasKey data "pos" then do
    let p ← lookup data "pos"
    let soundsV ← lookup data "sounds"
    let els ← pyToList soundsV
    let kept ← comprehend (posCond p) (fun s => some s) els
    pure (setKey data "sounds" (.list kept))
  else pure data

/-- `merge_base(data, base)`: returns the updated `data` and the list of keys
for which a scalar-conflict warning was logged. -/
def mergeBase (data base : Dict) : Option (Dict × List String) := do
  let (d, ws) ← base.foldlM mergeStep (data, [])
  let d ← soundsFilter1 d
  let d ← soundsFilter2 d
  pure (d, ws)

/-! ### Basic dictionary lemmas -/

@[simp] theorem lookup_nil (k : String) : lookup [] k = none := rfl

theorem lookup_cons (k' : String) (v : Val) (d : Dict) (k : String) :
    lookup ((k', v) :: d) k = if k' = k then some v else lookup d k := rfl

@[simp] theorem hasKey_nil (k : String) : hasKey [] k = false := rfl

theorem lookup_append (d1 d2 : Dict) (k : String) :
    lookup (d1 ++ d2) k = ((lookup d1 k).orElse (fun _ => lookup d2 k)) := by
  induction d1 with
  | nil => simp [lookup, Option.orElse]
  | cons kv rest ih =>
    obtain ⟨k', v⟩ := kv
    by_cases h : k' = k <;> simp [lookup, h, ih, Option.orElse]

theorem hasKey_append (d1 d2 : Dict) (k : String) :
    hasKey (d1 ++ d2) k = (hasKey d1 k || hasKey d2 k) := by
  unfold hasKey
  rw [lookup_append]
  cases lookup d1 k <;> simp [Option.orElse]

theorem setKey_of_not_hasKey (d : Dict) (k : String) (v : Val)
    (h : hasKey d k = false) : setKey d k v = d ++ [(k, v)] := by
  induction d with
  | nil => rfl
  | cons kv rest ih =>
    obtain ⟨k', v'⟩ := kv
    unfold hasKey lookup at h
    by_cases hk : k' = k
    · simp [hk] at h
    · simp [setKey, hk]
      exact ih (by simpa [hasKey, hk] using h)

theorem lookup_setKey_self (d : Dict) (k : String) (v : Val) :
    lookup (setKey d k v) k = some v := by
  induction d with
  | nil => simp [setKey, lookup]
  | cons kv rest ih =>
    obtain ⟨k', v'⟩ := kv
    by_cases h : k' = k <;> simp [setKey, lookup, h, ih]

theorem lookup_setKey_ne (d : Dict) (k k' : String) (v : Val) (h : k ≠ k') :
    lookup (setKey d k v) k' = lookup d k' := by
  induction d with
  | nil => simp [setKey, lookup, h]
  | cons kv rest ih =>
    obtain ⟨k1, v1⟩ := kv
    by_cases h1 : k1 = k <;> simp [setKey, lookup, h1, ih]
    · subst h1; simp [lookup, h]

theorem setKey_self_of_lookup (d : Dict) (k : String) (v : Val)
    (h : lookup d k = some v) : setKey d k v = d := by
  induction d with
  | nil => simp [lookup] at h
  | cons kv rest ih =>
    obtain ⟨k', v'⟩ := kv
    by_cases hk : k' = k
    · subst hk
      simp [lookup] at h
      simp [setKey, h]
    · simp [lookup, hk] at h
      simp [setKey, hk, ih h]

/-- A fold of `mergeStep` over a `base` whose keys are fresh for `data` (and
mutually distinct) just appends the bindings of `base`, with no warnings. -/
theorem foldlM_mergeStep_disjoint (base : Dict) : ∀ (data : Dict) (ws : List String),
    (∀ kv ∈ base, hasKey data kv.1 = false) →
    (base.map Prod.fst).Nodup →
    base.foldlM mergeStep (data, ws) = some (data ++ base, ws) := by
  induction base with
  | nil => intro data ws _ _; simp
  | cons kv rest ih =>
    intro data ws hfresh hnodup
    obtain ⟨k, v⟩ := kv
    have hk : hasKey data k = false := hfresh (k, v) (by simp)
    have hstep : mergeStep (data, ws) (k, v) = some (setKey data k v, ws) := by
      unfold mergeStep hasKey at *
      cases hl : lookup data k with
      | none => simp [hl]
      | some dv => simp [hl] at hk
    rw [List.foldlM_cons, hstep]
    simp only [Option.bind_eq_bind', Option.some_bind']
    rw [setKey_of_not_hasKey data k v hk]
    rw [List.map_cons, List.nodup_cons] at hnodup
    have hrest : ∀ kv ∈ rest, hasKey (data ++ [(k, v)]) kv.1 = false := by
      intro kv' hm
      rw [hasKey_append]
      have h1 := hfresh kv' (by simp [hm])
      have h2 : kv'.1 ≠ k := by
        intro he
        exact hnodup.1 (by rw [← he]; exact List.mem_map.mpr ⟨kv', hm, rfl⟩)
      have h3 : lookup data kv'.1 = none := by
        unfold hasKey at h1
        cases hl : lookup data kv'.1 with
        | none => rfl
        | some _ => rw [hl] at h1; simp at h1
      simp [hasKey, lookup, h3, Ne.symm h2]
    have := ih (data ++ [(k, v)]) ws hrest hnodup.2
    rw [this, List.append_assoc]
    rfl

/-- `merge_base` on key-disjoint dicts with no `sounds` key in the result:
plain ordered concatenation, no warnings, no exception. -/
theorem mergeBase_disjoint (data base : Dict)
    (hfresh : ∀ kv ∈ base, hasKey data kv.1 = false)
    (hnodup : (base.map Prod.fst).Nodup)
    (hsounds : hasKey data "sounds" = false ∧ ∀ kv ∈ base, kv.1 ≠ "sounds") :
    mergeBase data base = some (data ++ base, []) := by
  unfold mergeBase
  rw [foldlM_mergeStep_disjoint base data [] hfresh hnodup]
  have hs : hasKey (data ++ base) "sounds" = false := by
    rw [hasKey_append, hsounds.1]
    simp only [Bool.false_or]
    unfold hasKey
    have : ∀ b : Dict, (∀ kv ∈ b, kv.1 ≠ "sounds") → lookup b "sounds" = none := by
      intro b
      induction b with
      | nil => intro _; rfl
      | cons kv rest ih =>
        intro hb
        obtain ⟨k, v⟩ := kv
        have hk : k ≠ "sounds" := hb (k, v) (by simp)
        simp only [lookup, hk, if_false]
        exact ih (fun kv hm => hb kv (by simp [hm]))
    rw [this base hsounds.2]
    rfl
  simp only [Option.bind_some]
  unfold soundsFilter1 soundsFilter2
  simp [hs]

/-!
## The accumulator state of `parse_language` and its push operations

`parse_language` keeps its scopes in nonlocal mutable variables
(`sense_data`, `pos_data`, `etym_data`, `pos_datas`, `etym_datas`,
`page_datas`, `have_etym`) plus the parser's current-subsection marker
(`wxr.wtp.subsection`); these are gathered into a state record.  The external
helper `parse_alt_or_inflection_of` (form_descriptions.py, outside the sources
under review) is a parameter `altOf`; logged warnings are accumulated.
-/

structure LangState where
  sense_data : Dict
  pos_data : Dict
  etym_data : Dict
  pos_datas : List Dict
  etym_datas : List Dict
  page_datas : List Dict
  subsection : Option String
  haveEtym : Bool
  warnings : List String
  deriving Repr

/-- Truthiness of `wxr.wtp.subsection` (a string or `None`). -/
def subsectionTruthy : Option String → Bool
  | none => false
  | some s => s ≠ ""

section PushOps

variable (altOf : String → Option (List String × List Val))

/-- The early-exit test of `push_sense()`: no gloss and neither a
`translation-hub` nor a `no-gloss` tag (Python short-circuit order kept). -/
def senseEarlyOut (sd : Dict) : Option Bool :=
  let tags := (lookup sd "tags").getD (.list [])
  if truthy (lookup sd "glosses") then pure false
  else do
    let hub ← pyIn "translation-hub" tags
    if hub then pure false
    else do
      let ng ← pyIn "no-gloss" tags
      pure (!ng)

/-- The body of the participle/infinitive block of `push_sense()`: parses the
first sentence of the etymology text with `parse_alt_or_inflection_of` and, on
a form-of or alt-of result, extends the sense's `form_of`/`alt_of` and
`tags`. -/
def participleBody (st : LangState) : Option LangState := do
  let etymV ← lookup st.etym_data "etymology_text"
  let e ← (match etymV with | .str s => some s | _ => none)
  let e := (e.splitOn ". ").headD ""
  match altOf e with
  | none => pure st
  | some (ts, lst) =>
    if ts.contains "form-of" then do
      let sd ← dataExtend st.sense_data "form_of" lst
      let sd ← dataExtend sd "tags" (ts.map .str)
      pure {st with sense_data := sd}
    else if ts.contains "alt-of" then do
      let sd ← dataExtend st.sense_data "alt_of" lst
      let sd ← dataExtend sd "tags" (ts.map .str)
      pure {st with sense_data := sd}
    else pure st

/-- The participle-or-infinitive tag test of `push_sense()` (Python
short-circuit `or` kept). -/
def participleTest (sd : Dict) : Option Bool := do
  let tags2 := (lookup sd "tags").getD (.list [])
  let hp ← pyIn "participle" tags2
  if hp then pure true else pyIn "infinitive" tags2

/-- The participle/infinitive block of `push_sense()`: for a participle or
infinitive sense without `alt_of`/`form_of`, tries to parse the first sentence
of the etymology text as an inflection-of/alt-of source. -/
def participleBlock (st : LangState) : Option LangState := do
  let pi ← participleTest st.sense_data
  if pi && !hasKey st.sense_data "alt_of" && !hasKey st.sense_data "form_of"
      && hasKey st.etym_data "etymology_text" then
    participleBody altOf st
  else pure st

/-- The final fixup of `push_sense()`: a sense still without glosses gets the
`no-gloss` marker tag appended unless it already carries it. -/
def noGlossFixup (sd : Dict) : Option Dict :=
  if !truthy (lookup sd "glosses") then do
    let tags3 := (lookup sd "tags").getD (.list [])
    let ng ← pyIn "no-gloss" tags3
    if !ng then dataAppend sd "tags" (.str "no-gloss")
    else pure sd
  else pure sd

/-- `push_sense()` of `parse_language`: appends the current sense scratch to
`pos_datas` and resets it, unless the sense has no gloss and carries neither a
`translation-hub` nor a `no-gloss` tag, in which case it returns `False`
leaving the state untouched.  Returns the updated state and the boolean
result. -/
def pushSense (st : LangState) : Option (LangState × Bool) := do
  let earlyOut ← senseEarlyOut st.sense_data
  if earlyOut then pure (st, false)
  else do
    let st ← participleBlock altOf st
    let sd ← noGlossFixup st.sense_data
    let st := {st with sense_data := sd}
    pure ({st with pos_datas := st.pos_datas ++ [st.sense_data], sense_data := []}, true)

/-- `push_pos()` of `parse_language`: flushes the current sense first; if a
subsection (part-of-speech section) is open, wraps the accumulated senses into
an entry, merges `pos_data` into it and appends it to `etym_datas`; then
resets the part-of-speech scope and clears the subsection marker. -/
def pushPos (st : LangState) : Option LangState := do
  let (st, _) ← pushSense altOf st
  let st ←
    if subsectionTruthy st.subsection then do
      let data : Dict := [("senses", Val.list (st.pos_datas.map Val.dict))]
      let (data, ws) ← mergeBase data st.pos_data
      pure {st with etym_datas := st.etym_datas ++ [data],
                    warnings := st.warnings ++ ws}
    else pure st
  pure {st with pos_data := [], pos_datas := [], subsection := none}

/-- `push_etym()` of `parse_language`: flushes the part-of-speech scope first,
then merges `etym_data` into every pending entry, appends them to
`page_datas`, and resets the etymology scope. -/
def pushEtym (st : LangState) : Option LangState := do
  let st := {st with haveEtym := true}
  let st ← pushPos altOf st
  let merged ← st.etym_datas.mapM (fun d => mergeBase d st.etym_data)
  pure {st with page_datas := st.page_datas ++ merged.map Prod.fst,
                etym_data := [], etym_datas := [],
                warnings := st.warnings ++ (merged.map Prod.snd).flatten}

end PushOps

/-! ### Lemmas about the push operations -/

/-- The `tags` list of a sense record (empty for a missing or non-list value). -/
def tagList (d : Dict) : List Val :=
  match lookup d "tags" with
  | some (.list xs) => xs
  | _ => []

@[simp] theorem dataExtend_nil (d : Dict) (k : String) : dataExtend d k [] = some d := rfl

theorem dataExtend_lookup_ne (d d' : Dict) (k k' : String) (vs : List Val)
    (h : dataExtend d k vs = some d') (hne : k ≠ k') :
    lookup d' k' = lookup d k' := by
  unfold dataExtend at h
  by_cases hvs : vs = []
  · simp [hvs] at h
    subst h; rfl
  · simp [hvs] at h
    cases hl : lookup d k with
    | none =>
      rw [hl] at h
      simp at h
      subst h
      exact lookup_setKey_ne d k k' _ hne
    | some v =>
      rw [hl] at h
      cases v with
      | list xs => simp at h; subst h; exact lookup_setKey_ne d k k' _ hne
      | str s => simp at h
      | num n => simp at h
      | dict ds => simp at h

theorem dataAppend_lookup_ne (d d' : Dict) (k k' : String) (v : Val)
    (h : dataAppend d k v = some d') (hne : k ≠ k') :
    lookup d' k' = lookup d k' := by
  unfold dataAppend at h
  cases hl : lookup d k with
  | none =>
    rw [hl] at h
    simp at h
    subst h
    exact lookup_setKey_ne d k k' _ hne
  | some v' =>
    rw [hl] at h
    cases v' with
    | list xs => simp at h; subst h; exact lookup_setKey_ne d k k' _ hne
    | str s => simp at h
    | num n => simp at h
    | dict ds => simp at h

/-- A dict has well-shaped tags when its `tags` value, defaulted to an empty
list, is a list (so `tagList` describes it exactly). -/
def TagsOk (d : Dict) : Prop :=
  (lookup d "tags").getD (.list []) = .list (tagList d)

theorem tagsOk_of_lookup_none (d : Dict) (h : lookup d "tags" = none) : TagsOk d := by
  unfold TagsOk tagList
  rw [h]
  rfl

theorem tagsOk_of_lookup_list (d : Dict) (xs : List Val)
    (h : lookup d "tags" = some (.list xs)) : TagsOk d := by
  unfold TagsOk tagList
  rw [h]
  rfl

/-- Extending the `tags` of a record with well-shaped tags succeeds,
concatenates, keeps every other key, and keeps the tags well-shaped. -/
theorem dataExtend_tags (d : Dict) (vs : List Val) (h : TagsOk d) :
    ∃ d', dataExtend d "tags" vs = some d' ∧
      tagList d' = tagList d ++ vs ∧
      (∀ k', k' ≠ "tags" → lookup d' k' = lookup d k') ∧
      TagsOk d' := by
  by_cases hvs : vs = []
  · subst hvs
    exact ⟨d, rfl, by simp, fun _ _ => rfl, h⟩
  cases hl : lookup d "tags" with
  | none =>
    refine ⟨setKey d "tags" (.list vs), ?_, ?_, ?_, ?_⟩
    · unfold dataExtend; simp [hl, hvs]
    · unfold tagList at *
      rw [lookup_setKey_self, hl]
      simp
    · intro k' hk'
      exact lookup_setKey_ne d "tags" k' _ (fun he => hk' he.symm)
    · exact tagsOk_of_lookup_list _ _ (lookup_setKey_self d "tags" _)
  | some v =>
    have hv : v = .list (tagList d) := by
      unfold TagsOk at h
      rw [hl] at h; simpa using h
    subst hv
    refine ⟨setKey d "tags" (.list (tagList d ++ vs)), ?_, ?_, ?_, ?_⟩
    · unfold dataExtend; simp [hl, hvs]
    · unfold tagList
      rw [lookup_setKey_self]
    · intro k' hk'
      exact lookup_setKey_ne d "tags" k' _ (fun he => hk' he.symm)
    · exact tagsOk_of_lookup_list _ _ (lookup_setKey_self d "tags" _)

/-- Appending to the `tags` of a record with well-shaped tags succeeds,
appends, keeps every other key, and keeps the tags well-shaped. -/
theorem dataAppend_tags (d : Dict) (v : Val) (h : TagsOk d) :
    ∃ d', dataAppend d "tags" v = some d' ∧
      tagList d' = tagList d ++ [v] ∧
      (∀ k', k' ≠ "tags" → lookup d' k' = lookup d k') ∧
      TagsOk d' := by
  cases hl : lookup d "tags" with
  | none =>
    refine ⟨setKey d "tags" (.list [v]), ?_, ?_, ?_, ?_⟩
    · unfold dataAppend; simp [hl]
    · unfold tagList at *
      rw [lookup_setKey_self, hl]
      simp
    · intro k' hk'
      exact lookup_setKey_ne d "tags" k' _ (fun he => hk' he.symm)
    · exact tagsOk_of_lookup_list _ _ (lookup_setKey_self d "tags" _)
  | some v' =>
    have hv : v' = .list (tagList d) := by
      unfold TagsOk at h
      rw [hl] at h; simpa using h
    subst hv
    refine ⟨setKey d "tags" (.list (tagList d ++ [v])), ?_, ?_, ?_, ?_⟩
    · unfold dataAppend; simp [hl]
    · unfold tagList
      rw [lookup_setKey_self]
    · intro k' hk'
      exact lookup_setKey_ne d "tags" k' _ (fun he => hk' he.symm)
    · exact tagsOk_of_lookup_list _ _ (lookup_setKey_self d "tags" _)

/-- The early exit of `push_sense()` fires when the sense has no gloss and
neither marker tag. -/
theorem senseEarlyOut_true (sd : Dict) (ts : List Val)
    (htags : (lookup sd "tags").getD (.list []) = .list ts)
    (hg : truthy (lookup sd "glosses") = false)
    (hhub : (Val.str "translation-hub") ∉ ts)
    (hng : (Val.str "no-gloss") ∉ ts) :
    senseEarlyOut sd = some true := by
  unfold senseEarlyOut
  rw [htags]
  simp [hg, pyIn, List.elem_eq_mem, hhub, hng]

/-- `push_sense()` on a scratch sense with no gloss and neither marker tag:
returns `False` and leaves the whole state — including the scratch sense —
untouched. -/
theorem pushSense_no_content (altOf : String → Option (List String × List Val))
    (st : LangState) (ts : List Val)
    (htags : (lookup st.sense_data "tags").getD (.list []) = .list ts)
    (hg : truthy (lookup st.sense_data "glosses") = false)
    (hhub : (Val.str "translation-hub") ∉ ts)
    (hng : (Val.str "no-gloss") ∉ ts) :
    pushSense altOf st = some (st, false) := by
  unfold pushSense
  rw [senseEarlyOut_true st.sense_data ts htags hg hhub hng]
  rfl

/-- `push_sense()` on an empty scratch sense is a no-op returning `False`. -/
theorem pushSense_empty (altOf : String → Option (List String × List Val))
    (st : LangState) (h : st.sense_data = []) :
    pushSense altOf st = some (st, false) := by
  apply pushSense_no_content altOf st []
  · rw [h]; rfl
  · rw [h]; rfl
  · simp
  · simp

theorem tagList_eq_of_lookup_eq (d d' : Dict)
    (h : lookup d' "tags" = lookup d "tags") : tagList d' = tagList d := by
  unfold tagList
  rw [h]

theorem tagsOk_of_lookup_eq (d d' : Dict)
    (h : lookup d' "tags" = lookup d "tags") (hok : TagsOk d) : TagsOk d' := by
  unfold TagsOk at *
  rw [h, tagList_eq_of_lookup_eq d d' h, hok]

/-- `data_extend` on a key that is absent always succeeds and leaves every
other key unchanged. -/
theorem dataExtend_of_none (d : Dict) (k : String) (vs : List Val)
    (h : lookup d k = none) :
    ∃ d', dataExtend d k vs = some d' ∧
      ∀ k', k' ≠ k → lookup d' k' = lookup d k' := by
  by_cases hvs : vs = []
  · exact ⟨d, by simp [hvs], fun _ _ => rfl⟩
  · refine ⟨setKey d k (.list vs), ?_, ?_⟩
    · unfold dataExtend; simp [h, hvs]
    · intro k' hk'
      exact lookup_setKey_ne d k k' _ (fun he => hk' he.symm)

/-- The participle-block body only appends to the sense's `tags` and writes
`form_of`/`alt_of`; every other key of the scratch sense, and every other
state field, is unchanged. -/
theorem participleBody_spec (altOf : String → Option (List String × List Val))
    (st : LangState)
    (htags : TagsOk st.sense_data)
    (hfo : lookup st.sense_data "form_of" = none)
    (hao : lookup st.sense_data "alt_of" = none)
    (s : String)
    (he : lookup st.etym_data "etymology_text" = some (.str s)) :
    ∃ sd', participleBody altOf st = some {st with sense_data := sd'} ∧
      (∀ k', k' ≠ "tags" → k' ≠ "form_of" → k' ≠ "alt_of" →
        lookup sd' k' = lookup st.sense_data k') ∧
      (∃ extra, tagList sd' = tagList st.sense_data ++ extra) ∧
      TagsOk sd' := by
  unfold participleBody
  rw [he]
  simp only [Option.bind_eq_bind', Option.some_bind']
  cases halt : altOf ((s.splitOn ". ").headD "") with
  | none =>
    exact ⟨st.sense_data, rfl, fun _ _ _ _ => rfl, ⟨[], by simp⟩, htags⟩
  | some pr =>
    obtain ⟨ts, lst⟩ := pr
    cases hform : ts.contains "form-of" with
    | true =>
      simp only [hform, if_true]
      obtain ⟨sd1, hsd1, hsd1k⟩ := dataExtend_of_none st.sense_data "form_of" lst hfo
      have htags1 : TagsOk sd1 :=
        tagsOk_of_lookup_eq _ _ (hsd1k "tags" (by simp)) htags
      obtain ⟨sd2, hsd2, hsd2t, hsd2k, htags2⟩ := dataExtend_tags sd1 (ts.map .str) htags1
      refine ⟨sd2, ?_, ?_, ?_, htags2⟩
      · rw [hsd1, Option.some_bind', hsd2, Option.some_bind']
        rfl
      · intro k' h1 h2 h3
        rw [hsd2k k' h1, hsd1k k' h2]
      · exact ⟨ts.map .str, by
          rw [hsd2t, tagList_eq_of_lookup_eq _ _ (hsd1k "tags" (by simp))]⟩
    | false =>
      simp only [hform, Bool.false_eq_true, if_false]
      cases haltof : ts.contains "alt-of" with
      | true =>
        simp only [haltof, if_true]
        obtain ⟨sd1, hsd1, hsd1k⟩ := dataExtend_of_none st.sense_data "alt_of" lst hao
        have htags1 : TagsOk sd1 :=
          tagsOk_of_lookup_eq _ _ (hsd1k "tags" (by simp)) htags
        obtain ⟨sd2, hsd2, hsd2t, hsd2k, htags2⟩ := dataExtend_tags sd1 (ts.map .str) htags1
        refine ⟨sd2, ?_, ?_, ?_, htags2⟩
        · rw [hsd1, Option.some_bind', hsd2, Option.some_bind']
          rfl
        · intro k' h1 h2 h3
          rw [hsd2k k' h1, hsd1k k' h3]
        · exact ⟨ts.map .str, by
            rw [hsd2t, tagList_eq_of_lookup_eq _ _ (hsd1k "tags" (by simp))]⟩
      | false =>
        simp only [haltof, Bool.false_eq_true, if_false]
        exact ⟨st.sense_data, rfl, fun _ _ _ _ => rfl, ⟨[], by simp⟩, htags⟩

/-- The participle/infinitive block of `push_sense()` only appends to the
sense's tags and writes `form_of`/`alt_of`. -/
theorem participleBlock_spec (altOf : String → Option (List String × List Val))
    (st : LangState)
    (htags : TagsOk st.sense_data)
    (hety : ∀ v, lookup st.etym_data "etymology_text" = some v → ∃ s, v = .str s) :
    ∃ sd', participleBlock altOf st = some {st with sense_data := sd'} ∧
      (∀ k', k' ≠ "tags" → k' ≠ "form_of" → k' ≠ "alt_of" →
        lookup sd' k' = lookup st.sense_data k') ∧
      (∃ extra, tagList sd' = tagList st.sense_data ++ extra) ∧
      TagsOk sd' := by
  unfold participleBlock
  have hpi : participleTest st.sense_data
      = some ((tagList st.sense_data).contains (.str "participle")
        || (tagList st.sense_data).contains (.str "infinitive")) := by
    unfold participleTest
    unfold TagsOk at htags
    rw [htags]
    cases h : (tagList st.sense_data).contains (Val.str "participle") with
    | true =>
      simp only [pyIn, Option.bind_eq_bind', Option.some_bind', h, if_true, Bool.true_or]
      rfl
    | false => simp only [pyIn, Option.bind_eq_bind', Option.some_bind', h,
        Bool.false_eq_true, if_false, Bool.false_or]
  rw [hpi]
  simp only [Option.bind_eq_bind', Option.some_bind']
  by_cases hc : (((tagList st.sense_data).contains (Val.str "participle")
        || (tagList st.sense_data).contains (.str "infinitive"))
      && !hasKey st.sense_data "alt_of" && !hasKey st.sense_data "form_of"
      && hasKey st.etym_data "etymology_text") = true
  · rw [if_pos hc]
    simp only [Bool.and_eq_true, Bool.not_eq_eq_eq_not, Bool.not_true] at hc
    obtain ⟨⟨⟨_, hao⟩, hfo⟩, hek⟩ := hc
    have hfo' : lookup st.sense_data "form_of" = none := by
      unfold hasKey at hfo
      cases h : lookup st.sense_data "form_of" with
      | none => rfl
      | some _ => rw [h] at hfo; simp at hfo
    have hao' : lookup st.sense_data "alt_of" = none := by
      unfold hasKey at hao
      cases h : lookup st.sense_data "alt_of" with
      | none => rfl
      | some _ => rw [h] at hao; simp at hao
    obtain ⟨v, hv⟩ : ∃ v, lookup st.etym_data "etymology_text" = some v := by
      unfold hasKey at hek
      cases h : lookup st.etym_data "etymology_text" with
      | none => rw [h] at hek; simp at hek
      | some v => exact ⟨v, rfl⟩
    obtain ⟨s, hs⟩ := hety v hv
    subst hs
    exact participleBody_spec altOf st htags hfo' hao' s hv
  · rw [if_neg hc]
    exact ⟨st.sense_data, rfl, fun _ _ _ _ => rfl, ⟨[], by simp⟩, htags⟩

/-- The no-gloss fixup of `push_sense()`: appends `no-gloss` exactly when the
sense still has no glosses and no `no-gloss` tag. -/
theorem noGlossFixup_spec (sd : Dict) (htags : TagsOk sd) :
    ∃ sd', noGlossFixup sd = some sd' ∧
      lookup sd' "glosses" = lookup sd "glosses" ∧
      (∃ extra, tagList sd' = tagList sd ++ extra) ∧
      (truthy (lookup sd "glosses") = false → (Val.str "no-gloss") ∈ tagList sd') := by
  unfold noGlossFixup
  by_cases hg : truthy (lookup sd "glosses") = true
  · simp only [hg, Bool.not_true, Bool.false_eq_true, if_false]
    refine ⟨sd, rfl, rfl, ⟨[], by simp⟩, ?_⟩
    intro h
    exact Bool.noConfusion h
  · have hg' : truthy (lookup sd "glosses") = false := by
      cases h : truthy (lookup sd "glosses")
      · rfl
      · exact absurd h hg
    simp only [hg', Bool.not_false, if_true]
    unfold TagsOk at htags
    rw [htags]
    by_cases hng : (Val.str "no-gloss") ∈ tagList sd
    · have : (tagList sd).contains (Val.str "no-gloss") = true := by
        simpa [List.elem_eq_mem] using hng
      simp only [pyIn, this, Option.bind_eq_bind', Option.some_bind',
        Bool.not_true, Bool.false_eq_true, if_false]
      exact ⟨sd, rfl, rfl, ⟨[], by simp⟩, fun _ => hng⟩
    · have : (tagList sd).contains (Val.str "no-gloss") = false := by
        simpa [List.elem_eq_mem] using hng
      simp only [pyIn, this, Option.bind_eq_bind', Option.some_bind',
        Bool.not_false, if_true]
      obtain ⟨sd', hsd', hsdt, hsdk, _⟩ :=
        dataAppend_tags sd (.str "no-gloss") (by unfold TagsOk; exact htags)
      refine ⟨sd', hsd', hsdk "glosses" (by simp), ⟨[.str "no-gloss"], hsdt⟩, ?_⟩
      intro _
      rw [hsdt]
      simp

/-- `push_sense()` on a scratch sense that has content (a gloss or a marker
tag): appends a finalized sense to `pos_datas`, clears the scratch, and
returns `True`; the finalized sense keeps the scratch's glosses, only ever
gains tags, and carries `no-gloss` whenever it has no glosses. -/
theorem pushSense_pushes (altOf : String → Option (List String × List Val))
    (st : LangState)
    (htags : TagsOk st.sense_data)
    (hcontent : truthy (lookup st.sense_data "glosses") = true ∨
      (Val.str "translation-hub") ∈ tagList st.sense_data ∨
      (Val.str "no-gloss") ∈ tagList st.sense_data)
    (hety : ∀ v, lookup st.etym_data "etymology_text" = some v → ∃ s, v = .str s) :
    ∃ sd', pushSense altOf st = some
        ({st with pos_datas := st.pos_datas ++ [sd'], sense_data := []}, true) ∧
      lookup sd' "glosses" = lookup st.sense_data "glosses" ∧
      (∃ extra, tagList sd' = tagList st.sense_data ++ extra) ∧
      (truthy (lookup st.sense_data "glosses") = false →
        (Val.str "no-gloss") ∈ tagList sd') := by
  have heo : senseEarlyOut st.sense_data = some false := by
    unfold senseEarlyOut
    unfold TagsOk at htags
    rw [htags]
    rcases hcontent with hg | hhub | hng
    · simp [hg]
    · by_cases hg : truthy (lookup st.sense_data "glosses") = true
      · simp [hg]
      · have hg' : truthy (lookup st.sense_data "glosses") = false := by
          cases h : truthy (lookup st.sense_data "glosses")
          · rfl
          · exact absurd h hg
        have hc : (tagList st.sense_data).contains (Val.str "translation-hub") = true := by
          simpa [List.elem_eq_mem] using hhub
        simp only [hg', Bool.false_eq_true, if_false, pyIn, hc,
          Option.bind_eq_bind', Option.some_bind', if_true]
        rfl
    · by_cases hg : truthy (lookup st.sense_data "glosses") = true
      · simp [hg]
      · have hg' : truthy (lookup st.sense_data "glosses") = false := by
          cases h : truthy (lookup st.sense_data "glosses")
          · rfl
          · exact absurd h hg
        have hc : (tagList st.sense_data).contains (Val.str "no-gloss") = true := by
          simpa [List.elem_eq_mem] using hng
        cases hhub : (tagList st.sense_data).contains (Val.str "translation-hub") with
        | true =>
          simp only [hg', Bool.false_eq_true, if_false, pyIn, hhub,
            Option.bind_eq_bind', Option.some_bind', if_true]
          rfl
        | false =>
          simp only [hg', Bool.false_eq_true, if_false, pyIn, hhub, hc,
            Option.bind_eq_bind', Option.some_bind', Bool.not_true]
          rfl
  unfold pushSense
  rw [heo]
  simp only [Option.bind_eq_bind', Option.some_bind', Bool.false_eq_true, if_false]
  obtain ⟨sd1, hblock, hk1, ⟨e1, ht1⟩, htags1⟩ := participleBlock_spec altOf st htags hety
  rw [hblock]
  simp only [Option.bind_eq_bind', Option.some_bind']
  have hglosses1 : lookup sd1 "glosses" = lookup st.sense_data "glosses" :=
    hk1 "glosses" (by simp) (by simp) (by simp)
  obtain ⟨sd2, hfix, hg2, ⟨e2, ht2⟩, hng2⟩ := noGlossFixup_spec sd1 htags1
  rw [hfix]
  simp only [Option.bind_eq_bind', Option.some_bind']
  refine ⟨sd2, rfl, ?_, ?_, ?_⟩
  · rw [hg2, hglosses1]
  · exact ⟨e1 ++ e2, by rw [ht2, ht1, List.append_assoc]⟩
  · intro hg
    exact hng2 (by rw [hglosses1, hg])

section PosEpilogue

variable (altOf : String → Option (List String × List Val))

/-- The tail of `parse_part_of_speech` (en/page.py): flush any unfinished
sense; if the section collected no senses at all, synthesize a dummy sense
carrying the header tags plus `no-gloss`, and push it. -/
def posEpilogue (headerTags : List String) (st : LangState) : Option LangState := do
  let (st, _) ← pushSense altOf st
  if st.pos_datas = [] then do
    let sd ← dataExtend st.sense_data "tags" (headerTags.map .str)
    let sd ← dataAppend sd "tags" (.str "no-gloss")
    let (st, _) ← pushSense altOf {st with sense_data := sd}
    pure st
  else pure st

end PosEpilogue

/-- A part-of-speech section that yields zero senses still produces exactly
one dummy sense: no glosses, tagged `no-gloss` plus all header tags. -/
theorem posEpilogue_no_senses (altOf : String → Option (List String × List Val))
    (headerTags : List String) (st : LangState)
    (htags : TagsOk st.sense_data)
    (hg : truthy (lookup st.sense_data "glosses") = false)
    (hhub : (Val.str "translation-hub") ∉ tagList st.sense_data)
    (hng : (Val.str "no-gloss") ∉ tagList st.sense_data)
    (hpd : st.pos_datas = [])
    (hety : ∀ v, lookup st.etym_data "etymology_text" = some v → ∃ s, v = .str s) :
    ∃ sense, posEpilogue altOf headerTags st =
        some {st with pos_datas := [sense], sense_data := []} ∧
      truthy (lookup sense "glosses") = false ∧
      (Val.str "no-gloss") ∈ tagList sense ∧
      ∀ t ∈ headerTags, (Val.str t) ∈ tagList sense := by
  unfold posEpilogue
  rw [pushSense_no_content altOf st (tagList st.sense_data) htags hg hhub hng]
  simp only [Option.bind_eq_bind', Option.some_bind']
  rw [if_pos hpd]
  obtain ⟨sd1, hsd1, ht1, hk1, htags1⟩ :=
    dataExtend_tags st.sense_data (headerTags.map .str) htags
  rw [hsd1]
  simp only [Option.bind_eq_bind', Option.some_bind']
  obtain ⟨sd2, hsd2, ht2, hk2, htags2⟩ := dataAppend_tags sd1 (.str "no-gloss") htags1
  rw [hsd2]
  simp only [Option.bind_eq_bind', Option.some_bind']
  have hng2 : (Val.str "no-gloss") ∈ tagList sd2 := by
    rw [ht2]; simp
  obtain ⟨sd3, hpush, hg3, ⟨extra, ht3⟩, _⟩ :=
    pushSense_pushes altOf {st with sense_data := sd2}
      (by exact htags2) (Or.inr (Or.inr hng2)) hety
  rw [hpush]
  simp only [Option.bind_eq_bind', Option.some_bind']
  have hgl : lookup sd3 "glosses" = lookup st.sense_data "glosses" := by
    rw [hg3]
    show lookup sd2 "glosses" = _
    rw [hk2 "glosses" (by simp), hk1 "glosses" (by simp)]
  refine ⟨sd3, ?_, ?_, ?_, ?_⟩
  · rw [hpd]
    rfl
  · rw [hgl, hg]
  · rw [ht3]
    show Val.str "no-gloss" ∈ tagList sd2 ++ extra
    exact List.mem_append_left _ hng2
  · intro t ht
    rw [ht3]
    show Val.str t ∈ tagList sd2 ++ extra
    apply List.mem_append_left
    rw [ht2]
    apply List.mem_append_left
    rw [ht1]
    apply List.mem_append_right
    exact List.mem_map.mpr ⟨t, ht, rfl⟩

/-- `push_pos()` on a state with a flushed sense scratch and an open
subsection appends exactly one entry, whose `senses` are the accumulated
`pos_datas` and whose remaining fields are the `pos_data` bindings. -/
theorem pushPos_entry (altOf : String → Option (List String × List Val))
    (st : LangState)
    (hsd : st.sense_data = [])
    (hsub : subsectionTruthy st.subsection = true)
    (hfresh : ∀ kv ∈ st.pos_data, kv.1 ≠ "senses" ∧ kv.1 ≠ "sounds")
    (hnodup : (st.pos_data.map Prod.fst).Nodup) :
    pushPos altOf st = some {st with
      etym_datas := st.etym_datas ++
        [("senses", Val.list (st.pos_datas.map Val.dict)) :: st.pos_data],
      pos_data := [], pos_datas := [], subsection := none} := by
  unfold pushPos
  rw [pushSense_empty altOf st hsd]
  simp only [Option.bind_eq_bind', Option.some_bind']
  rw [if_pos hsub]
  have hmerge := mergeBase_disjoint [("senses", Val.list (st.pos_datas.map Val.dict))]
    st.pos_data
    (by
      intro kv hm
      have h1 := (hfresh kv hm).1
      unfold hasKey
      rw [lookup_cons, if_neg (fun h => h1 h.symm)]
      rfl)
    hnodup
    (by
      constructor
      · simp [hasKey, lookup]
      · intro kv hm
        exact (hfresh kv hm).2)
  rw [hmerge]
  simp only [Option.bind_eq_bind', Option.some_bind', Option.pure_def,
    List.append_nil]
  rfl

/-!
## The section walker of `process_children` as an event machine (C1)

For the LIFO/ordering claims the two scope-changing heading events of
`process_children` — an etymology heading and a part-of-speech heading (the
latter running `parse_part_of_speech` over the section's gloss list items) —
are modelled as an event list processed in document order.  Gloss texts are
the cleaned list-item texts (template expansion and `clean_node` are external
collaborators outside the sources under review).
-/

inductive PageEvent where
  | etym (num : Option Int) (txt : String) (tmpls : List Val)
  | pos (title : String) (p : String) (glosses : List String)
  deriving Repr

section Machine

variable (altOf : String → Option (List String × List Val))

/-- One gloss list item reduced to its cleaned text: `process_gloss_contents`
appends the gloss to the scratch sense and its final `push_sense()` pushes
it. -/
def doGloss (g : String) (st : LangState) : Option LangState := do
  let sd ← dataAppend st.sense_data "glosses" (.str g)
  let (st, _) ← pushSense altOf {st with sense_data := sd}
  pure st

def doGlosses (gs : List String) (st : LangState) : Option LangState :=
  gs.foldlM (fun st g => doGloss altOf g st) st

/-- `parse_part_of_speech` reduced to its sense-collecting skeleton:
`pos_data["pos"] = pos` at entry, the gloss list items, then the no-senses
fallback (`posEpilogue`, with no header tags modelled). -/
def doPosSection (p : String) (glosses : List String) (st : LangState) :
    Option LangState := do
  let st := {st with pos_data := setKey st.pos_data "pos" (.str p)}
  let st ← doGlosses altOf glosses st
  posEpilogue altOf [] st

/-- The etymology-heading branch of `process_children`: `push_etym()`,
`start_subsection(None)`, the optional trailing number of the heading, then
`parse_etymology` (which assigns `etymology_text` and
`etymology_templates`). -/
def doEtymSection (num : Option Int) (txt : String) (tmpls : List Val)
    (st : LangState) : Option LangState := do
  let st ← pushEtym altOf st
  let st := {st with subsection := none}
  let ed := match num with
    | some n => setKey st.etym_data "etymology_number" (.num n)
    | none => st.etym_data
  let ed := setKey ed "etymology_text" (.str txt)
  let ed := setKey ed "etymology_templates" (.list tmpls)
  pure {st with etym_data := ed}

/-- The part-of-speech-heading branch of `process_children`: `push_pos()`,
`start_subsection(t)`, then `parse_part_of_speech`. -/
def doPosEvent (title p : String) (glosses : List String) (st : LangState) :
    Option LangState := do
  let st ← pushPos altOf st
  let st := {st with subsection := some title}
  doPosSection altOf p glosses st

def stepEvent (st : LangState) : PageEvent → Option LangState
  | .etym num txt tmpls => doEtymSection altOf num txt tmpls st
  | .pos t p gs => doPosEvent altOf t p gs st

def runEvents (evts : List PageEvent) (st : LangState) : Option LangState :=
  evts.foldlM (fun st e => stepEvent altOf st e) st

/-- The state of `parse_language` right after initializing its scopes. -/
def initState : LangState :=
  { sense_data := [], pos_data := [], etym_data := [], pos_datas := [],
    etym_datas := [], page_datas := [], subsection := none,
    haveEtym := false, warnings := [] }

/-- The copy-tags pass at the end of `parse_language`: move an entry's `tags`
into each of its senses. -/
def copyTagsToSenses (d : Dict) : Option Dict :=
  match lookup d "senses" with
  | none => some d
  | some sv => do
    let tagsV := (lookup d "tags").getD (.list [])
    let tags ← pyToList tagsV
    let d := removeKey d "tags"
    let senses ← pyToList sv
    let senses ← senses.mapM (fun s =>
      match s with
      | .dict sd => do
          let sd ← dataExtend sd "tags" tags
          pure (Val.dict sd)
      | _ => none)
    pure (setKey d "senses" (.list senses))

/-- The final pass of `parse_language`: `push_etym()` once more, then merge
`base_data` into each entry and copy entry-level tags into every sense. -/
def finalPass (baseData : Dict) (st : LangState) : Option (List Dict) := do
  let st ← pushEtym altOf st
  let ret ← st.page_datas.mapM (fun d => do
    let (d, _) ← mergeBase d baseData
    pure d)
  ret.mapM copyTagsToSenses

/-- `parse_language` over one language section: process the heading events in
document order, then finalize. -/
def runPage (word lang langCode : String) (evts : List PageEvent) :
    Option (List Dict) := do
  let st ← runEvents altOf evts initState
  finalPass altOf
    [("word", .str word), ("lang", .str lang), ("lang_code", .str langCode)] st

end Machine

/-!
### The reference behaviour, written from the spec

`specSections` pairs every part-of-speech section, in document order, with the
etymology heading it falls under; `specEntries` builds the expected finalized
entries: the senses of an entry are exactly the glosses of its own section
(with the `no-gloss` dummy for an empty section), followed by its section's
POS, the enclosing etymology data, and the page-level base data.
-/

abbrev EtymInfo := Option Int × String × List Val

def specSections : Option EtymInfo → List PageEvent →
    List (Option EtymInfo × String × List String)
  | _, [] => []
  | _, .etym n t tp :: rest => specSections (some (n, t, tp)) rest
  | cur, .pos _ p gs :: rest => (cur, p, gs) :: specSections cur rest

def senseOfGloss (g : String) : Dict := [("glosses", Val.list [Val.str g])]

def specSenses (gs : List String) : List Dict :=
  if gs = [] then [[("tags", Val.list [Val.str "no-gloss"])]]
  else gs.map senseOfGloss

/-- The etymology-derived bindings of an entry, in their insertion order. -/
def etymTail : Option EtymInfo → Dict
  | none => []
  | some (n, t, tp) =>
    (match n with | some n => [("etymology_number", Val.num n)] | none => []) ++
    [("etymology_text", Val.str t), ("etymology_templates", Val.list tp)]

/-- An entry as it sits in `etym_datas`, before the etymology merge. -/
def entryPre (p : String) (gs : List String) : Dict :=
  ("senses", Val.list ((specSenses gs).map Val.dict)) :: [("pos", Val.str p)]

/-- An entry as it sits in `page_datas`, after the etymology merge. -/
def entryWithEtym (et : Option EtymInfo) (p : String) (gs : List String) : Dict :=
  entryPre p gs ++ etymTail et

/-- A finalized entry, after the base-data merge. -/
def specEntry (word lang langCode : String)
    (e : Option EtymInfo × String × List String) : Dict :=
  entryWithEtym e.1 e.2.1 e.2.2 ++
  [("word", Val.str word), ("lang", Val.str lang), ("lang_code", Val.str langCode)]

def specEntries (word lang langCode : String) (evts : List PageEvent) : List Dict :=
  (specSections none evts).map (specEntry word lang langCode)

/-!
### Simulation: the concrete machine tracks an abstract accumulator
-/

/-- The abstract accumulator: current etymology, finalized page entries,
pending entries of the current etymology, and the open part-of-speech section
(heading title, POS, glosses). -/
structure Abs where
  curEtym : Option EtymInfo
  donePage : List (Option EtymInfo × String × List String)
  doneEtym : List (String × List String)
  curPos : Option (String × String × List String)
  hv : Bool

def flushPos : Option (String × String × List String) → List (String × List String)
  | none => []
  | some x => [(x.2.1, x.2.2)]

def absStep (a : Abs) : PageEvent → Abs
  | .etym n t tp =>
    { curEtym := some (n, t, tp),
      donePage := a.donePage ++
        (a.doneEtym ++ flushPos a.curPos).map (fun pg => (a.curEtym, pg.1, pg.2)),
      doneEtym := [], curPos := none, hv := true }
  | .pos t p gs =>
    { a with doneEtym := a.doneEtym ++ flushPos a.curPos, curPos := some (t, p, gs) }

def absRun (a : Abs) : List PageEvent → Abs
  | [] => a
  | e :: rest => absRun (absStep a e) rest

/-- All entries of the abstract accumulator, with every pending entry
attributed to the current etymology. -/
def Abs.final (a : Abs) : List (Option EtymInfo × String × List String) :=
  a.donePage ++ (a.doneEtym ++ flushPos a.curPos).map (fun pg => (a.curEtym, pg.1, pg.2))

/-- The concrete `parse_language` state corresponding to an abstract
accumulator. -/
def mkState (a : Abs) : LangState where
  sense_data := []
  pos_data := match a.curPos with | none => [] | some x => [("pos", Val.str x.2.1)]
  etym_data := etymTail a.curEtym
  pos_datas := match a.curPos with | none => [] | some x => specSenses x.2.2
  etym_datas := a.doneEtym.map (fun pg => entryPre pg.1 pg.2)
  page_datas := a.donePage.map (fun x => entryWithEtym x.1 x.2.1 x.2.2)
  subsection := a.curPos.map (fun x => x.1)
  haveEtym := a.hv
  warnings := []

/-- An open section's heading title is nonempty (headings are nonempty in
wikitext, and `wxr.wtp.subsection` truthiness relies on it). -/
def Abs.Wf (a : Abs) : Prop := ∀ x, a.curPos = some x → x.1 ≠ ""

def EventsWf (evts : List PageEvent) : Prop :=
  ∀ e ∈ evts, ∀ t p gs, e = PageEvent.pos t p gs → t ≠ ""

/-! ### Generic helpers -/

theorem lookup_eq_none_of_keys_ne (d : Dict) (k : String)
    (h : ∀ kv ∈ d, kv.1 ≠ k) : lookup d k = none := by
  induction d with
  | nil => rfl
  | cons kv rest ih =>
    obtain ⟨k', v⟩ := kv
    have hk : k' ≠ k := h (k', v) (by simp)
    simp only [lookup, hk, if_false]
    exact ih (fun kv hm => h kv (by simp [hm]))

theorem removeKey_of_not_hasKey (d : Dict) (k : String)
    (h : hasKey d k = false) : removeKey d k = d := by
  induction d with
  | nil => rfl
  | cons kv rest ih =>
    obtain ⟨k', v⟩ := kv
    unfold hasKey at h
    by_cases hk : k' = k
    · rw [lookup_cons, if_pos hk] at h
      simp at h
    · rw [lookup_cons, if_neg hk] at h
      simp only [removeKey, hk, if_false]
      rw [ih h]

theorem mapM_congr_some {α β : Type} (f : α → Option β) (g : α → β) :
    ∀ (l : List α), (∀ x ∈ l, f x = some (g x)) → l.mapM f = some (l.map g) := by
  intro l
  induction l with
  | nil => intro _; rfl
  | cons x rest ih =>
    intro h
    rw [List.mapM_cons, h x (by simp)]
    simp only [Option.bind_eq_bind', Option.pure_def, Option.some_bind']
    rw [ih (fun y hy => h y (by simp [hy]))]
    rfl

/-! ### Concrete `push_sense` computations used by the machine -/

/-- `push_sense()` on a one-gloss scratch sense pushes it unchanged. -/
theorem pushSense_gloss (altOf : String → Option (List String × List Val))
    (st : LangState) (g : String)
    (hsd : st.sense_data = [("glosses", Val.list [Val.str g])]) :
    pushSense altOf st =
      some ({st with pos_datas := st.pos_datas ++ [st.sense_data],
                     sense_data := []}, true) := by
  unfold pushSense senseEarlyOut participleBlock participleTest noGlossFixup
  simp [hsd, lookup, truthy, pyIn, hasKey]

/-- `push_sense()` on the no-gloss dummy sense pushes it unchanged. -/
theorem pushSense_dummy (altOf : String → Option (List String × List Val))
    (st : LangState)
    (hsd : st.sense_data = [("tags", Val.list [Val.str "no-gloss"])]) :
    pushSense altOf st =
      some ({st with pos_datas := st.pos_datas ++ [st.sense_data],
                     sense_data := []}, true) := by
  unfold pushSense senseEarlyOut participleBlock participleTest noGlossFixup
  simp [hsd, lookup, truthy, pyIn, hasKey]

theorem doGloss_mk (altOf : String → Option (List String × List Val))
    (g : String) (st : LangState) (hsd : st.sense_data = []) :
    doGloss altOf g st =
      some {st with pos_datas := st.pos_datas ++ [senseOfGloss g]} := by
  obtain ⟨sd, pd, ed, pds, eds, pgs, sub, hv, ws⟩ := st
  dsimp only at hsd ⊢
  subst hsd
  unfold doGloss
  dsimp only
  rw [show dataAppend [] "glosses" (Val.str g) = some (senseOfGloss g) from rfl]
  simp only [Option.bind_eq_bind', Option.some_bind']
  rw [pushSense_gloss altOf ⟨senseOfGloss g, pd, ed, pds, eds, pgs, sub, hv, ws⟩ g rfl]
  rfl

theorem doGlosses_mk (altOf : String → Option (List String × List Val))
    (gs : List String) : ∀ (st : LangState), st.sense_data = [] →
    doGlosses altOf gs st =
      some {st with pos_datas := st.pos_datas ++ gs.map senseOfGloss} := by
  induction gs with
  | nil =>
    intro st hsd
    show some st = _
    rw [show st.pos_datas ++ [].map senseOfGloss = st.pos_datas by simp]
  | cons g rest ih =>
    intro st hsd
    have step : doGlosses altOf (g :: rest) st
        = (doGloss altOf g st).bind (fun s => doGlosses altOf rest s) := rfl
    rw [step, doGloss_mk altOf g st hsd, Option.some_bind']
    rw [ih {st with pos_datas := st.pos_datas ++ [senseOfGloss g]} hsd]
    rw [show (st.pos_datas ++ [senseOfGloss g]) ++ rest.map senseOfGloss
        = st.pos_datas ++ (g :: rest).map senseOfGloss by
      rw [List.append_assoc]; rfl]

/-- The no-senses fallback of `parse_part_of_speech` is a no-op when senses
were collected. -/
theorem posEpilogue_nonempty (altOf : String → Option (List String × List Val))
    (st : LangState) (hsd : st.sense_data = []) (hpd : st.pos_datas ≠ []) :
    posEpilogue altOf [] st = some st := by
  unfold posEpilogue
  rw [pushSense_empty altOf st hsd]
  simp only [Option.bind_eq_bind', Option.some_bind']
  rw [if_neg hpd]
  rfl

/-- The no-senses fallback of `parse_part_of_speech` synthesizes the single
`no-gloss` dummy sense. -/
theorem posEpilogue_empty (altOf : String → Option (List String × List Val))
    (st : LangState) (hsd : st.sense_data = []) (hpd : st.pos_datas = []) :
    posEpilogue altOf [] st =
      some {st with pos_datas := [[("tags", Val.list [Val.str "no-gloss"])]],
                    sense_data := []} := by
  unfold posEpilogue
  rw [pushSense_empty altOf st hsd]
  simp only [Option.bind_eq_bind', Option.some_bind']
  rw [if_pos hpd]
  have h1 : dataExtend st.sense_data "tags" (([] : List String).map .str) = some st.sense_data := by
    rfl
  rw [h1, Option.some_bind']
  have h2 : dataAppend st.sense_data "tags" (.str "no-gloss")
      = some [("tags", Val.list [Val.str "no-gloss"])] := by
    rw [hsd]
    rfl
  rw [h2, Option.some_bind']
  rw [pushSense_dummy altOf
    {st with sense_data := [("tags", Val.list [Val.str "no-gloss"])]} rfl]
  rw [Option.some_bind', hpd]
  rfl

theorem doPosSection_mk (altOf : String → Option (List String × List Val))
    (p : String) (gs : List String) (st : LangState)
    (hsd : st.sense_data = []) (hpd : st.pos_data = []) (hpds : st.pos_datas = []) :
    doPosSection altOf p gs st =
      some {st with pos_data := [("pos", Val.str p)], pos_datas := specSenses gs} := by
  obtain ⟨sd, pd, ed, pds, eds, pgs, sub, hv, ws⟩ := st
  dsimp only at hsd hpd hpds ⊢
  subst hsd hpd hpds
  unfold doPosSection
  dsimp only
  rw [doGlosses_mk altOf gs ⟨[], setKey [] "pos" (Val.str p), ed, [], eds, pgs, sub, hv, ws⟩ rfl]
  simp only [Option.bind_eq_bind', Option.some_bind']
  dsimp only [List.nil_append]
  cases gs with
  | nil =>
    rw [posEpilogue_empty altOf
      ⟨[], setKey [] "pos" (Val.str p), ed, List.map senseOfGloss [], eds, pgs, sub, hv, ws⟩
      rfl rfl]
    rfl
  | cons g rest =>
    rw [posEpilogue_nonempty altOf
      ⟨[], setKey [] "pos" (Val.str p), ed, List.map senseOfGloss (g :: rest), eds, pgs, sub, hv, ws⟩
      rfl (by simp)]
    rw [show specSenses (g :: rest) = (g :: rest).map senseOfGloss by
      unfold specSenses; simp]
    rfl

/-! ### Merging entries with the etymology and base scopes -/

theorem etymTail_keys (et : Option EtymInfo) :
    ∀ kv ∈ etymTail et, kv.1 = "etymology_number" ∨ kv.1 = "etymology_text"
      ∨ kv.1 = "etymology_templates" := by
  intro kv hm
  cases et with
  | none => simp [etymTail] at hm
  | some x =>
    obtain ⟨n, t, tp⟩ := x
    cases n with
    | none =>
      simp [etymTail] at hm
      rcases hm with h | h <;> simp [h]
    | some n =>
      simp [etymTail] at hm
      rcases hm with h | h | h <;> simp [h]

theorem etymTail_nodup (et : Option EtymInfo) :
    ((etymTail et).map Prod.fst).Nodup := by
  cases et with
  | none => simp [etymTail]
  | some x =>
    obtain ⟨n, t, tp⟩ := x
    cases n with
    | none => simp [etymTail]
    | some n => simp [etymTail]

theorem hasKey_entryPre (p : String) (gs : List String) (k : String)
    (h1 : k ≠ "senses") (h2 : k ≠ "pos") :
    hasKey (entryPre p gs) k = false := by
  unfold hasKey entryPre
  rw [lookup_cons, if_neg (fun h => h1 h.symm), lookup_cons,
    if_neg (fun h => h2 h.symm)]
  rfl

theorem mergeBase_entry_etym (p : String) (gs : List String) (et : Option EtymInfo) :
    mergeBase (entryPre p gs) (etymTail et) = some (entryWithEtym et p gs, []) := by
  unfold entryWithEtym
  apply mergeBase_disjoint
  · intro kv hm
    rcases etymTail_keys et kv hm with h | h | h <;>
      exact hasKey_entryPre p gs kv.1 (by rw [h]; decide) (by rw [h]; decide)
  · exact etymTail_nodup et
  · constructor
    · exact hasKey_entryPre p gs "sounds" (by decide) (by decide)
    · intro kv hm
      rcases etymTail_keys et kv hm with h | h | h <;> rw [h] <;> decide

theorem hasKey_entryWithEtym (et : Option EtymInfo) (p : String) (gs : List String)
    (k : String) (h1 : k ≠ "senses") (h2 : k ≠ "pos")
    (h3 : k ≠ "etymology_number") (h4 : k ≠ "etymology_text")
    (h5 : k ≠ "etymology_templates") :
    hasKey (entryWithEtym et p gs) k = false := by
  unfold entryWithEtym
  rw [hasKey_append, hasKey_entryPre p gs k h1 h2]
  simp only [Bool.false_or]
  unfold hasKey
  rw [lookup_eq_none_of_keys_ne _ _ (by
    intro kv hm
    rcases etymTail_keys et kv hm with h | h | h <;> rw [h]
    · exact fun he => h3 he.symm
    · exact fun he => h4 he.symm
    · exact fun he => h5 he.symm)]
  rfl

theorem mergeBase_entry_base (w l lc : String) (et : Option EtymInfo)
    (p : String) (gs : List String) :
    mergeBase (entryWithEtym et p gs)
        [("word", Val.str w), ("lang", Val.str l), ("lang_code", Val.str lc)]
      = some (specEntry w l lc (et, p, gs), []) := by
  unfold specEntry
  apply mergeBase_disjoint
  · intro kv hm
    simp at hm
    rcases hm with h | h | h <;> subst h
    · exact hasKey_entryWithEtym et p gs "word" (by decide) (by decide) (by decide)
        (by decide) (by decide)
    · exact hasKey_entryWithEtym et p gs "lang" (by decide) (by decide) (by decide)
        (by decide) (by decide)
    · exact hasKey_entryWithEtym et p gs "lang_code" (by decide) (by decide)
        (by decide) (by decide) (by decide)
  · simp
  · constructor
    · exact hasKey_entryWithEtym et p gs "sounds" (by decide) (by decide) (by decide)
        (by decide) (by decide)
    · intro kv hm
      simp at hm
      rcases hm with h | h | h <;> subst h
      · exact (show "word" ≠ "sounds" by decide)
      · exact (show "lang" ≠ "sounds" by decide)
      · exact (show "lang_code" ≠ "sounds" by decide)

theorem flatten_map_nil {α β : Type} (l : List α) :
    (l.map (fun _ => ([] : List β))).flatten = [] := by
  induction l with
  | nil => rfl
  | cons x rest ih => simp [ih]

theorem mapM_map_congr_some {α β γ : Type} (h : α → β) (f : β → Option γ)
    (g : α → γ) (l : List α) (hfg : ∀ x ∈ l, f (h x) = some (g x)) :
    (l.map h).mapM f = some (l.map g) := by
  induction l with
  | nil => rfl
  | cons x rest ih =>
    rw [List.map_cons, List.mapM_cons, hfg x (by simp)]
    simp only [Option.bind_eq_bind', Option.pure_def, Option.some_bind']
    rw [ih (fun y hy => hfg y (by simp [hy]))]
    rfl

/-! ### The push operations on tracked states -/

theorem pushPos_mk (altOf : String → Option (List String × List Val))
    (a : Abs) (hwf : a.Wf) :
    pushPos altOf (mkState a) =
      some (mkState {a with doneEtym := a.doneEtym ++ flushPos a.curPos,
                            curPos := none}) := by
  cases hc : a.curPos with
  | none =>
    unfold pushPos
    rw [pushSense_empty altOf (mkState a) rfl]
    simp only [Option.bind_eq_bind', Option.some_bind']
    have hsub : subsectionTruthy (mkState a).subsection = false := by
      show subsectionTruthy (a.curPos.map _) = false
      rw [hc]
      rfl
    rw [hsub]
    simp only [Bool.false_eq_true, if_false, Option.some_bind']
    show some _ = some _
    unfold mkState
    rw [hc]
    simp [flushPos]
  | some x =>
    have hx : subsectionTruthy (mkState a).subsection = true := by
      show subsectionTruthy (a.curPos.map _) = true
      rw [hc]
      show subsectionTruthy (some x.1) = true
      unfold subsectionTruthy
      simpa using hwf x hc
    rw [pushPos_entry altOf (mkState a) rfl hx
      (by
        show ∀ kv ∈ (match a.curPos with
          | none => ([] : Dict) | some x => [("pos", Val.str x.2.1)]), _
        rw [hc]
        intro kv hm
        simp at hm
        rw [show kv.1 = "pos" from congrArg Prod.fst hm]
        exact ⟨by decide, by decide⟩)
      (by
        show (List.map Prod.fst (match a.curPos with
          | none => ([] : Dict) | some x => [("pos", Val.str x.2.1)])).Nodup
        rw [hc]
        simp)]
    show some _ = some _
    unfold mkState
    rw [hc]
    simp only [flushPos, List.map_append]
    rfl

theorem pushEtym_mk (altOf : String → Option (List String × List Val))
    (a : Abs) (hwf : a.Wf) :
    pushEtym altOf (mkState a) = some (mkState ⟨none, a.final, [], none, true⟩) := by
  rw [show pushEtym altOf (mkState a) = ((pushPos altOf {mkState a with haveEtym := true}).bind fun st => (st.etym_datas.mapM (fun d => mergeBase d st.etym_data)).bind fun merged => some {st with page_datas := st.page_datas ++ merged.map Prod.fst, etym_data := [], etym_datas := [], warnings := st.warnings ++ (merged.map Prod.snd).flatten}) from rfl]
  rw [show ({mkState a with haveEtym := true} : LangState) = mkState ⟨a.curEtym, a.donePage, a.doneEtym, a.curPos, true⟩ from rfl]
  rw [pushPos_mk altOf ⟨a.curEtym, a.donePage, a.doneEtym, a.curPos, true⟩
    (by intro x hx; exact hwf x hx)]
  rw [Option.some_bind']
  dsimp only
  have h2 : (mkState ⟨a.curEtym, a.donePage, a.doneEtym ++ flushPos a.curPos,
        none, true⟩).etym_datas.mapM
        (fun d => mergeBase d (mkState ⟨a.curEtym, a.donePage,
          a.doneEtym ++ flushPos a.curPos, none, true⟩).etym_data)
      = some ((a.doneEtym ++ flushPos a.curPos).map
          (fun pg => (entryWithEtym a.curEtym pg.1 pg.2, ([] : List String)))) := by
    show ((a.doneEtym ++ flushPos a.curPos).map (fun pg => entryPre pg.1 pg.2)).mapM
        (fun d => mergeBase d (etymTail a.curEtym)) = _
    exact mapM_map_congr_some _ _ _ _
      (fun pg _ => mergeBase_entry_etym pg.1 pg.2 a.curEtym)
  rw [h2, Option.some_bind']
  show some _ = some _
  unfold mkState Abs.final
  simp only [List.map_append, List.map_map]
  rw [show (Prod.fst ∘ fun pg : String × List String => (entryWithEtym a.curEtym pg.1 pg.2, ([] : List String))) = (fun pg : String × List String => entryWithEtym a.curEtym pg.1 pg.2) from rfl]
  rw [show ((fun x : Option EtymInfo × String × List String => entryWithEtym x.1 x.2.1 x.2.2) ∘ fun pg : String × List String => (a.curEtym, pg.1, pg.2)) = (fun pg : String × List String => entryWithEtym a.curEtym pg.1 pg.2) from rfl]
  rw [show (Prod.snd ∘ fun pg : String × List String => (entryWithEtym a.curEtym pg.1 pg.2, ([] : List String))) = (fun _ : String × List String => ([] : List String)) from rfl]
  rw [List.flatten_append, flatten_map_nil, flatten_map_nil]
  rfl

theorem doEtymSection_mk (altOf : String → Option (List String × List Val))
    (a : Abs) (hwf : a.Wf) (n : Option Int) (txt : String) (tmpls : List Val) :
    doEtymSection altOf n txt tmpls (mkState a) =
      some (mkState (absStep a (.etym n txt tmpls))) := by
  unfold doEtymSection
  rw [pushEtym_mk altOf a hwf]
  simp only [Option.bind_eq_bind', Option.some_bind']
  show some _ = some _
  unfold mkState absStep Abs.final
  cases n <;> rfl

theorem doPosEvent_mk (altOf : String → Option (List String × List Val))
    (a : Abs) (hwf : a.Wf) (t p : String) (gs : List String) :
    doPosEvent altOf t p gs (mkState a) =
      some (mkState (absStep a (.pos t p gs))) := by
  unfold doPosEvent
  rw [pushPos_mk altOf a hwf]
  simp only [Option.bind_eq_bind', Option.some_bind']
  rw [doPosSection_mk altOf p gs _ rfl rfl rfl]
  show some _ = some _
  unfold mkState absStep
  rfl

theorem absStep_wf (a : Abs) (e : PageEvent) (_hwf : a.Wf)
    (he : ∀ t p gs, e = PageEvent.pos t p gs → t ≠ "") : (absStep a e).Wf := by
  cases e with
  | etym n txt tp =>
    intro x hx
    simp [absStep] at hx
  | pos t p gs =>
    intro x hx
    simp [absStep] at hx
    subst hx
    exact he t p gs rfl

theorem runEvents_mk (altOf : String → Option (List String × List Val)) :
    ∀ (evts : List PageEvent) (a : Abs), a.Wf → EventsWf evts →
      runEvents altOf evts (mkState a) = some (mkState (absRun a evts)) := by
  intro evts
  induction evts with
  | nil => intro a _ _; rfl
  | cons e rest ih =>
    intro a hwf hew
    have hstep : stepEvent altOf (mkState a) e = some (mkState (absStep a e)) := by
      cases e with
      | etym n txt tp => exact doEtymSection_mk altOf a hwf n txt tp
      | pos t p gs =>
        exact doPosEvent_mk altOf a hwf t p gs
    show (stepEvent altOf (mkState a) e).bind _ = _
    rw [hstep, Option.some_bind']
    exact ih (absStep a e)
      (absStep_wf a e hwf (fun t p gs hte => hew e (by simp) t p gs hte))
      (fun e' hm => hew e' (by simp [hm]))

/-! ### The final pass on tracked states -/

theorem specEntry_keys (w l lc : String) (e : Option EtymInfo × String × List String) :
    ∀ kv ∈ specEntry w l lc e, kv.1 = "senses" ∨ kv.1 = "pos"
      ∨ kv.1 = "etymology_number" ∨ kv.1 = "etymology_text"
      ∨ kv.1 = "etymology_templates" ∨ kv.1 = "word" ∨ kv.1 = "lang"
      ∨ kv.1 = "lang_code" := by
  intro kv hm
  unfold specEntry at hm
  rcases List.mem_append.mp hm with h | h
  · unfold entryWithEtym at h
    rcases List.mem_append.mp h with h2 | h2
    · unfold entryPre at h2
      simp at h2
      rcases h2 with h3 | h3 <;> simp [h3]
    · rcases etymTail_keys e.1 kv h2 with h3 | h3 | h3 <;> simp [h3]
  · simp at h
    rcases h with h3 | h3 | h3 <;> simp [h3]

/-- The copy-tags pass is the identity on a finalized entry (it has no
entry-level `tags`). -/
theorem copyTags_specEntry (w l lc : String)
    (e : Option EtymInfo × String × List String) :
    copyTagsToSenses (specEntry w l lc e) = some (specEntry w l lc e) := by
  unfold copyTagsToSenses
  have hs : lookup (specEntry w l lc e) "senses"
      = some (Val.list ((specSenses e.2.2).map Val.dict)) := by
    unfold specEntry entryWithEtym entryPre
    rfl
  rw [hs]
  have ht : lookup (specEntry w l lc e) "tags" = none := by
    apply lookup_eq_none_of_keys_ne
    intro kv hm
    rcases specEntry_keys w l lc e kv hm with h | h | h | h | h | h | h | h <;>
      rw [h] <;> decide
  rw [ht]
  simp only [Option.getD_none, Option.getD_some]
  rw [show pyToList (Val.list []) = some [] from rfl]
  simp only [Option.bind_eq_bind', Option.some_bind']
  rw [removeKey_of_not_hasKey _ _ (by unfold hasKey; rw [ht]; rfl)]
  rw [show pyToList (Val.list ((specSenses e.2.2).map Val.dict))
    = some ((specSenses e.2.2).map Val.dict) from rfl]
  simp only [Option.bind_eq_bind', Option.some_bind']
  rw [mapM_map_congr_some Val.dict _ Val.dict (specSenses e.2.2)
    (fun sd _ => by simp [dataExtend])]
  simp only [Option.bind_eq_bind', Option.some_bind']
  rw [setKey_self_of_lookup _ _ _ hs]
  rfl

theorem finalPass_mk (altOf : String → Option (List String × List Val))
    (w l lc : String) (a : Abs) (hwf : a.Wf) :
    finalPass altOf [("word", Val.str w), ("lang", Val.str l), ("lang_code", Val.str lc)]
        (mkState a)
      = some (a.final.map (specEntry w l lc)) := by
  unfold finalPass
  rw [pushEtym_mk altOf a hwf]
  simp only [Option.bind_eq_bind', Option.some_bind']
  have h1 : (mkState ⟨none, a.final, [], none, true⟩).page_datas.mapM
      (fun d => (mergeBase d [("word", Val.str w), ("lang", Val.str l),
        ("lang_code", Val.str lc)]).bind (fun x => some x.1))
      = some (a.final.map (specEntry w l lc)) := by
    show (a.final.map (fun x => entryWithEtym x.1 x.2.1 x.2.2)).mapM _ = _
    apply mapM_map_congr_some
    intro x _
    rw [show specEntry w l lc x = specEntry w l lc (x.1, x.2.1, x.2.2) from rfl,
      mergeBase_entry_base w l lc x.1 x.2.1 x.2.2]
    rfl
  rw [show (mkState ⟨none, a.final, [], none, true⟩).page_datas.mapM
      (fun d => (mergeBase d [("word", Val.str w), ("lang", Val.str l),
        ("lang_code", Val.str lc)]).bind (fun x => pure x.1))
    = some (a.final.map (specEntry w l lc)) from h1]
  simp only [Option.bind_eq_bind', Option.some_bind']
  exact mapM_map_congr_some (specEntry w l lc) copyTagsToSenses (specEntry w l lc)
    a.final (fun y _ => copyTags_specEntry w l lc y)

theorem absRun_final : ∀ (evts : List PageEvent) (a : Abs),
    (absRun a evts).final = a.final ++ specSections a.curEtym evts := by
  intro evts
  induction evts with
  | nil => intro a; simp [absRun, specSections]
  | cons e rest ih =>
    intro a
    cases e with
    | etym n t tp =>
      show (absRun (absStep a (.etym n t tp)) rest).final = _
      rw [ih]
      rw [show specSections a.curEtym (PageEvent.etym n t tp :: rest)
        = specSections (some (n, t, tp)) rest from rfl]
      unfold absStep Abs.final
      simp [flushPos]
    | pos t p gs =>
      show (absRun (absStep a (.pos t p gs)) rest).final = _
      rw [ih]
      rw [show specSections a.curEtym (PageEvent.pos t p gs :: rest)
        = (a.curEtym, p, gs) :: specSections a.curEtym rest from rfl]
      unfold absStep Abs.final
      simp [flushPos, List.map_append, List.append_assoc]

theorem absRun_wf : ∀ (evts : List PageEvent) (a : Abs), a.Wf → EventsWf evts →
    (absRun a evts).Wf := by
  intro evts
  induction evts with
  | nil => intro a hwf _; exact hwf
  | cons e rest ih =>
    intro a hwf hew
    exact ih (absStep a e)
      (absStep_wf a e hwf (fun t p gs hte => hew e (by simp) t p gs hte))
      (fun e' hm => hew e' (by simp [hm]))

/-- The full `parse_language` run equals the specified output: one entry per
part-of-speech section, in document order, whose senses are exactly that
section's glosses (or the `no-gloss` dummy), tagged with the enclosing
etymology's data and the page-level word/language data. -/
theorem runPage_eq_spec (altOf : String → Option (List String × List Val))
    (w l lc : String) (evts : List PageEvent) (hwf : EventsWf evts) :
    runPage altOf w l lc evts = some (specEntries w l lc evts) := by
  unfold runPage
  have h0 : initState = mkState ⟨none, [], [], none, false⟩ := rfl
  rw [h0, runEvents_mk altOf evts ⟨none, [], [], none, false⟩
    (by intro x hx; cases hx) hwf]
  simp only [Option.bind_eq_bind', Option.some_bind']
  rw [finalPass_mk altOf w l lc _
    (absRun_wf evts ⟨none, [], [], none, false⟩ (by intro x hx; cases hx) hwf)]
  rw [absRun_final evts ⟨none, [], [], none, false⟩]
  unfold specEntries
  rfl

/-!
## Scalar conflicts in `merge_base` (C2) and the sound filters (C9)
-/

/-- Unfolding equation for `mergeStep` at a literal pair of arguments. -/
theorem mergeStep_eq (data : Dict) (ws : List String) (k : String) (v : Val) :
    mergeStep (data, ws) (k, v) =
      match lookup data k with
      | none => some (setKey data k v, ws)
      | some dv =>
        if dv = v then some (data, ws)
        else if isListV dv || isListV v then do
          let l1 ← pyToList dv
          let l2 ← pyToList v
          some (setKey data k (.list (l1 ++ l2)), ws)
        else
          some (data, ws ++ [k]) := rfl

/-- Dissolving a successful `Option` bind into its two stages. -/
theorem bind_eq_some_ex {α β : Type} {x : Option α} {f : α → Option β} {b : β}
    (h : x >>= f = some b) : ∃ a, x = some a ∧ f a = some b := by
  cases x with
  | none => exact absurd h (by simp)
  | some a => exact ⟨a, rfl, h⟩

/-- One merge step on a key different from `k` does not touch `k`'s binding
and only appends to the warning list. -/
theorem mergeStep_other_key (data : Dict) (ws : List String) (k k' : String)
    (v' : Val) (d' : Dict) (ws' : List String)
    (hstep : mergeStep (data, ws) (k', v') = some (d', ws')) (hne : k' ≠ k) :
    lookup d' k = lookup data k ∧ ∃ tail, ws' = ws ++ tail := by
  rw [mergeStep_eq] at hstep
  cases hl : lookup data k' with
  | none =>
    rw [hl] at hstep
    simp at hstep
    obtain ⟨h1, h2⟩ := hstep
    subst h1 h2
    exact ⟨lookup_setKey_ne data k' k v' hne, [], by simp⟩
  | some dv =>
    rw [hl] at hstep
    by_cases he : dv = v'
    · simp [he] at hstep
      obtain ⟨h1, h2⟩ := hstep
      subst h1 h2
      exact ⟨rfl, [], by simp⟩
    · simp only [he, if_false] at hstep
      by_cases hlst : (isListV dv || isListV v') = true
      · rw [if_pos hlst] at hstep
        obtain ⟨l1, _, hstep⟩ := bind_eq_some_ex hstep
        obtain ⟨l2, _, hstep⟩ := bind_eq_some_ex hstep
        simp at hstep
        obtain ⟨h1, h2⟩ := hstep
        subst h1 h2
        exact ⟨lookup_setKey_ne data k' k _ hne, [], by simp⟩
      · rw [if_neg hlst] at hstep
        simp at hstep
        obtain ⟨h1, h2⟩ := hstep
        subst h1 h2
        exact ⟨rfl, [k'], rfl⟩

/-- Folding merge steps over bindings whose keys all differ from `k` leaves
`k`'s binding unchanged and only appends warnings. -/
theorem mergeFold_other_keys (k : String) :
    ∀ (base : Dict) (data : Dict) (ws : List String) (res : Dict × List String),
      (∀ kv ∈ base, kv.1 ≠ k) →
      base.foldlM mergeStep (data, ws) = some res →
      lookup res.1 k = lookup data k ∧ ∃ tail, res.2 = ws ++ tail := by
  intro base
  induction base with
  | nil =>
    intro data ws res _ hres
    simp at hres
    subst hres
    exact ⟨rfl, [], by simp⟩
  | cons kv rest ih =>
    intro data ws res hkeys hres
    obtain ⟨k1, v1⟩ := kv
    rw [List.foldlM_cons] at hres
    cases hstep : mergeStep (data, ws) (k1, v1) with
    | none => rw [hstep] at hres; simp at hres
    | some st1 =>
      rw [hstep] at hres
      simp only [Option.bind_eq_bind', Option.some_bind'] at hres
      obtain ⟨d1, ws1⟩ := st1
      obtain ⟨hl1, t1, ht1⟩ := mergeStep_other_key data ws k k1 v1 d1 ws1 hstep
        (hkeys (k1, v1) (by simp))
      obtain ⟨hl2, t2, ht2⟩ := ih d1 ws1 res (fun kv hm => hkeys kv (by simp [hm])) hres
      refine ⟨by rw [hl2, hl1], t1 ++ t2, ?_⟩
      rw [ht2, ht1, List.append_assoc]

/-- The merge loop on a scalar conflict at key `k`: the destination's value
survives and a warning naming `k` is logged. -/
theorem mergeFold_scalar_conflict (k : String) (a b : Val)
    (hne : a ≠ b) (hla : isListV a = false) (hlb : isListV b = false) :
    ∀ (base : Dict) (data : Dict) (ws : List String) (res : Dict × List String),
      (base.map Prod.fst).Nodup →
      (k, b) ∈ base →
      lookup data k = some a →
      base.foldlM mergeStep (data, ws) = some res →
      lookup res.1 k = some a ∧ k ∈ res.2 := by
  intro base
  induction base with
  | nil => intro data ws res _ hmem; simp at hmem
  | cons kv rest ih =>
    intro data ws res hnodup hmem hdata hres
    obtain ⟨k1, v1⟩ := kv
    rw [List.map_cons, List.nodup_cons] at hnodup
    rw [List.foldlM_cons] at hres
    by_cases hk1 : k1 = k
    · subst hk1
      have hv1 : v1 = b := by
        rcases List.mem_cons.mp hmem with h | h
        · exact (Prod.mk.injEq _ _ _ _ ▸ h.symm).2
        · exact absurd (List.mem_map.mpr ⟨(k1, b), h, rfl⟩) hnodup.1
      rw [hv1] at hres
      have hstep : mergeStep (data, ws) (k1, b) = some (data, ws ++ [k1]) := by
        rw [mergeStep_eq, hdata]
        simp [hne, hla, hlb]
      rw [hstep] at hres
      simp only [Option.bind_eq_bind', Option.some_bind'] at hres
      obtain ⟨hl, t, ht⟩ := mergeFold_other_keys k1 rest data (ws ++ [k1]) res
        (by
          intro kv hm he
          exact hnodup.1 (he ▸ List.mem_map.mpr ⟨kv, hm, rfl⟩))
        hres
      refine ⟨by rw [hl, hdata], ?_⟩
      rw [ht]
      simp
    · have hmem' : (k, b) ∈ rest := by
        rcases List.mem_cons.mp hmem with h | h
        · exact absurd (congrArg Prod.fst h).symm hk1
        · exact h
      cases hstep : mergeStep (data, ws) (k1, v1) with
      | none => rw [hstep] at hres; simp at hres
      | some st1 =>
        rw [hstep] at hres
        simp only [Option.bind_eq_bind', Option.some_bind'] at hres
        obtain ⟨d1, ws1⟩ := st1
        obtain ⟨hl1, t1, ht1⟩ := mergeStep_other_key data ws k k1 v1 d1 ws1 hstep hk1
        exact ih d1 ws1 res hnodup.2 hmem' (by rw [hl1, hdata]) hres

/-- The sound filters only touch the `sounds` binding. -/
theorem soundsFilter1_other_key (d d' : Dict) (k : String)
    (h : soundsFilter1 d = some d') (hk : k ≠ "sounds") :
    lookup d' k = lookup d k := by
  unfold soundsFilter1 at h
  by_cases hc : (hasKey d "sounds" && hasKey d "word") = true
  · rw [if_pos hc] at h
    obtain ⟨w, _, h⟩ := bind_eq_some_ex h
    obtain ⟨forms, _, h⟩ := bind_eq_some_ex h
    obtain ⟨formVals, _, h⟩ := bind_eq_some_ex h
    obtain ⟨soundsV, _, h⟩ := bind_eq_some_ex h
    obtain ⟨els, _, h⟩ := bind_eq_some_ex h
    obtain ⟨kept, _, h⟩ := bind_eq_some_ex h
    simp only [Option.pure_def, Option.some.injEq] at h
    subst h
    exact lookup_setKey_ne d "sounds" k _ (fun he => hk he.symm)
  · rw [if_neg hc] at h
    simp at h
    subst h
    rfl

theorem soundsFilter2_other_key (d d' : Dict) (k : String)
    (h : soundsFilter2 d = some d') (hk : k ≠ "sounds") :
    lookup d' k = lookup d k := by
  unfold soundsFilter2 at h
  by_cases hc : (hasKey d "sounds" && hasKey d "pos") = true
  · rw [if_pos hc] at h
    obtain ⟨p, _, h⟩ := bind_eq_some_ex h
    obtain ⟨soundsV, _, h⟩ := bind_eq_some_ex h
    obtain ⟨els, _, h⟩ := bind_eq_some_ex h
    obtain ⟨kept, _, h⟩ := bind_eq_some_ex h
    simp only [Option.pure_def, Option.some.injEq] at h
    subst h
    exact lookup_setKey_ne d "sounds" k _ (fun he => hk he.symm)
  · rw [if_neg hc] at h
    simp at h
    subst h
    rfl

/-- `merge_base` on a scalar conflict: the result keeps the destination's
value and logs a warning; the source's conflicting value is dropped. -/
theorem mergeBase_scalar_conflict (data base : Dict) (k : String) (a b : Val)
    (hnodup : (base.map Prod.fst).Nodup)
    (hmem : (k, b) ∈ base)
    (hdata : lookup data k = some a)
    (hne : a ≠ b)
    (hla : isListV a = false) (hlb : isListV b = false)
    (hks : k ≠ "sounds")
    (d : Dict) (ws : List String)
    (hres : mergeBase data base = some (d, ws)) :
    lookup d k = some a ∧ k ∈ ws := by
  unfold mergeBase at hres
  obtain ⟨⟨d0, ws0⟩, hfold, hres⟩ := bind_eq_some_ex hres
  obtain ⟨d1, hf1, hres⟩ := bind_eq_some_ex hres
  obtain ⟨d2, hf2, hres⟩ := bind_eq_some_ex hres
  simp only [Option.pure_def, Option.some.injEq, Prod.mk.injEq] at hres
  obtain ⟨hd2, hws⟩ := hres
  subst hd2 hws
  obtain ⟨hl0, hw0⟩ := mergeFold_scalar_conflict k a b hne hla hlb base data []
    (d0, ws0) hnodup hmem hdata hfold
  refine ⟨?_, hw0⟩
  rw [soundsFilter2_other_key d1 d2 k hf2 hks, soundsFilter1_other_key d0 d1 k hf1 hks]
  exact hl0

/-- C2 (counterexample): merging `{"pos": "verb"}` into an entry that already
has `"pos": "noun"` keeps the destination's `"noun"` and logs a warning for
`pos`; it does not coerce the two values into a list. -/
theorem C2_counterexample :
    mergeBase [("pos", Val.str "noun")] [("pos", Val.str "verb")]
      = some ([("pos", Val.str "noun")], ["pos"]) ∧
    mergeBase [("pos", Val.str "noun")] [("pos", Val.str "verb")]
      ≠ some ([("pos", Val.list [Val.str "noun", Val.str "verb"])], ["pos"]) := by
  decide

/-- C2 (corrected): when the destination entry and the merged-in scope both
define the same scalar (non-list) field with different values, `merge_base`
logs a warning naming the field and keeps the destination's value; the
source's conflicting value is discarded and no list of the two values is
built. -/
theorem C2_scalar_conflict_keeps_destination (data base : Dict) (k : String)
    (a b : Val)
    (hnodup : (base.map Prod.fst).Nodup)
    (hmem : (k, b) ∈ base)
    (hdata : lookup data k = some a)
    (hne : a ≠ b)
    (hla : isListV a = false) (hlb : isListV b = false)
    (hks : k ≠ "sounds")
    (d : Dict) (ws : List String)
    (hres : mergeBase data base = some (d, ws)) :
    lookup d k = some a ∧ k ∈ ws :=
  mergeBase_scalar_conflict data base k a b hnodup hmem hdata hne hla hlb hks d ws hres

/-- The form filter's per-sound condition on a dict sound: kept when it has no
`form` annotation or its `form` is among the accepted values. -/
def formKeep (accepted : List Val) (s : Dict) : Bool :=
  match lookup s "form" with
  | none => true
  | some f => accepted.contains f

/-- The pos filter's per-sound condition on a dict sound: kept when it has no
`pos` annotation or its `pos` equals the record's pos. -/
def posKeep (p : Val) (s : Dict) : Bool :=
  match lookup s "pos" with
  | none => true
  | some sp => sp == p

theorem formCond_dict (accepted : List Val) (s : Dict) :
    formCond accepted (Val.dict s) = some (formKeep accepted s) := by
  unfold formCond formKeep
  cases hf : lookup s "form" with
  | none =>
    have hk : hasKey s "form" = false := by rw [hasKey, hf]; rfl
    simp [pyIn, hk]
  | some f =>
    have hk : hasKey s "form" = true := by rw [hasKey, hf]; rfl
    simp [pyIn, hk, pySubscript, hf]

theorem posCond_dict (p : Val) (s : Dict) :
    posCond p (Val.dict s) = some (posKeep p s) := by
  unfold posCond posKeep
  cases hf : lookup s "pos" with
  | none =>
    have hk : hasKey s "pos" = false := by rw [hasKey, hf]; rfl
    simp [pyIn, hk]
  | some sp =>
    have hk : hasKey s "pos" = true := by rw [hasKey, hf]; rfl
    simp [pyIn, hk, pySubscript, hf]

/-- The form-filter comprehension on a list of dict sounds filters by
`formKeep` and pops the `pos` key from every kept sound. -/
theorem comprehend_form (accepted : List Val) (sds : List Dict) :
    comprehend (formCond accepted) (complementaryPop "pos") (sds.map Val.dict)
      = some ((sds.filter (formKeep accepted)).map
          (fun s => Val.dict (removeKey s "pos"))) := by
  induction sds with
  | nil => rfl
  | cons s rest ih =>
    rw [List.map_cons,
      show comprehend (formCond accepted) (complementaryPop "pos")
          (Val.dict s :: rest.map Val.dict)
        = (formCond accepted (Val.dict s)).bind (fun b =>
            if b then
              (complementaryPop "pos" (Val.dict s)).bind (fun v =>
                (comprehend (formCond accepted) (complementaryPop "pos")
                  (rest.map Val.dict)).bind (fun vs => some (v :: vs)))
            else comprehend (formCond accepted) (complementaryPop "pos")
              (rest.map Val.dict)) from rfl,
      formCond_dict, Option.some_bind']
    cases hk : formKeep accepted s with
    | true =>
      rw [if_pos rfl,
        show complementaryPop "pos" (Val.dict s)
          = some (Val.dict (removeKey s "pos")) from rfl,
        Option.some_bind', ih, Option.some_bind']
      simp [List.filter_cons, hk]
    | false =>
      rw [if_neg (by simp), ih]
      simp [List.filter_cons, hk]

/-- The pos-filter comprehension on a list of dict sounds filters by
`posKeep` and keeps each sound unchanged. -/
theorem comprehend_pos (p : Val) (sds : List Dict) :
    comprehend (posCond p) (fun s => some s) (sds.map Val.dict)
      = some ((sds.filter (posKeep p)).map Val.dict) := by
  induction sds with
  | nil => rfl
  | cons s rest ih =>
    rw [List.map_cons,
      show comprehend (posCond p) (fun s => some s)
          (Val.dict s :: rest.map Val.dict)
        = (posCond p (Val.dict s)).bind (fun b =>
            if b then
              (some (Val.dict s)).bind (fun v =>
                (comprehend (posCond p) (fun s => some s)
                  (rest.map Val.dict)).bind (fun vs => some (v :: vs)))
            else comprehend (posCond p) (fun s => some s)
              (rest.map Val.dict)) from rfl,
      posCond_dict, Option.some_bind']
    cases hk : posKeep p s with
    | true =>
      rw [if_pos rfl, Option.some_bind', ih, Option.some_bind']
      simp [List.filter_cons, hk]
    | false =>
      rw [if_neg (by simp), ih]
      simp [List.filter_cons, hk]

/-- Characterization of the first sound filter on a record with a word. -/
theorem soundsFilter1_spec (data : Dict) (w : Val) (forms formVals : List Val)
    (sds : List Dict)
    (hw : lookup data "word" = some w)
    (hs : lookup data "sounds" = some (Val.list (sds.map Val.dict)))
    (hfl : pyToList ((lookup data "forms").getD (Val.list [])) = some forms)
    (hfv : forms.mapM (fun f => pySubscript f "form") = some formVals) :
    soundsFilter1 data = some (setKey data "sounds"
      (Val.list ((sds.filter (formKeep (w :: formVals))).map
        (fun s => Val.dict (removeKey s "pos"))))) := by
  unfold soundsFilter1
  have hc : (hasKey data "sounds" && hasKey data "word") = true := by
    rw [hasKey, hasKey, hs, hw]; rfl
  rw [if_pos hc]
  simp only [Option.bind_eq_bind']
  rw [hw, Option.some_bind', hfl, Option.some_bind', hfv, Option.some_bind',
    hs, Option.some_bind',
    show pyToList (Val.list (sds.map Val.dict)) = some (sds.map Val.dict) from rfl,
    Option.some_bind', comprehend_form, Option.some_bind']
  rfl

/-- Characterization of the second sound filter on a record with a pos. -/
theorem soundsFilter2_spec (data : Dict) (p : Val) (sds : List Dict)
    (hp : lookup data "pos" = some p)
    (hs : lookup data "sounds" = some (Val.list (sds.map Val.dict))) :
    soundsFilter2 data = some (setKey data "sounds"
      (Val.list ((sds.filter (posKeep p)).map Val.dict))) := by
  unfold soundsFilter2
  have hc : (hasKey data "sounds" && hasKey data "pos") = true := by
    rw [hasKey, hasKey, hs, hp]; rfl
  rw [if_pos hc]
  simp only [Option.bind_eq_bind']
  rw [hp, Option.some_bind', hs, Option.some_bind',
    show pyToList (Val.list (sds.map Val.dict)) = some (sds.map Val.dict) from rfl,
    Option.some_bind', comprehend_pos, Option.some_bind']
  rfl

/-!
## Heading classification in `process_children` (C6, C7)

The classifier branch of `process_children` resolves a lowercased heading
title `t` through a chain of checks against the language configuration's
section tables; only the part-of-speech / linkage / compounds checks see the
digit-stripped title.
-/

/-- Python `str.isdigit()` (ASCII digits suffice for section numbering). -/
def pyIsDigit (s : String) : Bool :=
  s ≠ "" && s.data.all (fun c => c.isDigit)

/-- Worker for `pySplit`: scans the characters, collecting the current token
in reverse. -/
def pySplitAux (cur : List Char) : List Char → List String
  | [] => if cur.isEmpty then [] else [String.mk cur.reverse]
  | c :: rest =>
    if c.isWhitespace then
      if cur.isEmpty then pySplitAux [] rest
      else String.mk cur.reverse :: pySplitAux [] rest
    else pySplitAux (c :: cur) rest

/-- Python `str.split()`: whitespace-separated tokens, empties dropped. -/
def pySplit (s : String) : List String :=
  pySplitAux [] s.data

/-- The `while len(lst) > 1 and lst[-1].isdigit(): lst = lst[:-1]` loop of
`process_children`, acting on the reversed token list. -/
def stripRev : List String → List String
  | [] => []
  | [x] => [x]
  | x :: y :: rest => if pyIsDigit x then stripRev (y :: rest) else x :: y :: rest

/-- The digit-stripping loop on a token list in document order. -/
def stripTokens (lst : List String) : List String :=
  (stripRev lst.reverse).reverse

/-- `t_no_number` of `process_children`: split, drop trailing numeric tokens
(keeping at least one token), rejoin. -/
def stripNumSuffix (t : String) : String :=
  String.intercalate " " (stripTokens (pySplit t))

/-- `re.sub(r"\s*\d+$", "", title_text)` of `ko/page.py parse_section`:
removes a trailing run of digits together with any whitespace before it. -/
def koStripNumSuffix (title : String) : String :=
  let cs := title.data.reverse
  if cs.takeWhile Char.isDigit = [] then title
  else String.mk (((cs.dropWhile Char.isDigit).dropWhile Char.isWhitespace).reverse)

/-- `t.startswith(tuple(ps))`. -/
def startsWithAny (t : String) (ps : List String) : Bool :=
  ps.any (fun p => decide (p.data <+: t.data))

/-- Lookup in a title table such as `POS_SUBTITLES` (title to pos name) or
`LINKAGE_SUBTITLES` (title to linkage relation). -/
def lookupStr (tbl : List (String × String)) (k : String) : Option String :=
  match tbl with
  | [] => none
  | (k', v) :: rest => if k' = k then some v else lookupStr rest k

/-- The section tables of a language configuration consulted by
`process_children`. -/
structure SectionConfig where
  pronunciationSubtitles : List String
  etymologySubtitles : List String
  descendants : Option String
  protoRootDerivedSections : List String
  translations : Option String
  ignoredSections : List String
  inflectionSections : List String
  posSubtitles : List (String × String)
  linkageSubtitles : List (String × String)
  compounds : Option String
  captureDescendants : Bool

/-- The possible classifications of a heading in `process_children`. -/
inductive SectionKind where
  | pronunciation
  | etymology
  | descendants
  | protoRoot
  | translations
  | ignored
  | inflection
  | pos (p : String)
  | linkage (rel : String)
  | compounds
  | unrecognized
  deriving DecidableEq, Repr

/-- The classifier chain of `process_children` on a lowercased heading title:
pronunciation and etymology match on title beginnings, the remaining "other
section" tables match the exact title, and only the final part-of-speech /
linkage / compounds checks use the digit-stripped title. -/
def classifySection (cfg : SectionConfig) (pos : String)
    (isReconstruction : Bool) (t : String) : SectionKind :=
  if startsWithAny t cfg.pronunciationSubtitles then .pronunciation
  else if startsWithAny t cfg.etymologySubtitles then .etymology
  else if cfg.descendants == some t && cfg.captureDescendants then .descendants
  else if cfg.protoRootDerivedSections.contains t && pos == "root"
      && isReconstruction && cfg.captureDescendants then .protoRoot
  else if cfg.translations == some t then .translations
  else if cfg.ignoredSections.contains t then .ignored
  else if cfg.inflectionSections.contains t then .inflection
  else
    match lookupStr cfg.posSubtitles (stripNumSuffix t) with
    | some p => .pos p
    | none =>
      match lookupStr cfg.linkageSubtitles (stripNumSuffix t) with
      | some rel => .linkage rel
      | none =>
        if cfg.compounds == some (stripNumSuffix t) then .compounds
        else .unrecognized

/-- The stripping loop keeps at least one token. -/
theorem stripRev_ne_nil : ∀ l : List String, l ≠ [] → stripRev l ≠ []
  | [], h => absurd rfl h
  | [x], _ => by simp [stripRev]
  | x :: y :: rest, _ => by
      unfold stripRev
      by_cases hd : pyIsDigit x = true
      · rw [if_pos hd]
        exact stripRev_ne_nil (y :: rest) (by simp)
      · rw [if_neg hd]
        simp

theorem stripTokens_ne_nil (lst : List String) (h : lst ≠ []) :
    stripTokens lst ≠ [] := by
  unfold stripTokens
  simp only [ne_eq, List.reverse_eq_nil_iff]
  exact stripRev_ne_nil lst.reverse (by simpa using h)

/-- C1: scope finalization is strictly LIFO and complete: running a page's
section events through the push machinery (`push_sense` inside `push_pos`
inside `push_etym`, with a final `push_etym` after the walk) produces exactly
the entries predicted by document order — every part-of-speech section's
senses end up in that section's own entry under its own etymology heading,
and no entry contains sense data from a later section. -/
theorem C1_lifo_finalization (altOf : String → Option (List String × List Val))
    (w l lc : String) (evts : List PageEvent) (hwf : EventsWf evts) :
    runPage altOf w l lc evts = some (specEntries w l lc evts) :=
  runPage_eq_spec altOf w l lc evts hwf

/-- C1 witness: the spec's concrete two-etymology scenario (Etymology 1 with a
noun of two senses, Etymology 2 with a verb of one sense). -/
theorem C1_lifo_finalization_witness :
    runPage (fun _ => none) "Foo" "English" "en"
        [PageEvent.etym (some 1) "From X." [], PageEvent.pos "noun" "noun" ["a", "b"],
          PageEvent.etym (some 2) "From Y." [], PageEvent.pos "verb" "verb" ["c"]]
      = some (specEntries "Foo" "English" "en"
        [PageEvent.etym (some 1) "From X." [], PageEvent.pos "noun" "noun" ["a", "b"],
          PageEvent.etym (some 2) "From Y." [], PageEvent.pos "verb" "verb" ["c"]]) :=
  C1_lifo_finalization (fun _ => none) "Foo" "English" "en" _ (by
    intro e he t p gs hep
    fin_cases he <;> cases hep <;> decide)

/-- C4 (counterexample): `push_sense()` on a scratch sense that has no gloss
but a non-marker tag returns `False` and leaves the scratch sense data intact
— it is not cleared to empty. -/
theorem C4_counterexample :
    pushSense (fun _ => none)
        ⟨[("tags", Val.list [Val.str "obsolete"])], [], [], [], [], [], none, false, []⟩
      = some (⟨[("tags", Val.list [Val.str "obsolete"])], [], [], [], [], [], none, false, []⟩, false) ∧
    [("tags", Val.list [Val.str "obsolete"])] ≠ ([] : Dict) :=
  ⟨rfl, by decide⟩

/-- C4 (corrected): `push_sense()` on a scratch sense with no gloss and
neither a `no-gloss` nor a `translation-hub` marker tag appends nothing and
returns `False`, but it leaves the whole state — including the scratch sense
data — exactly as it was; the scratch is not cleared. -/
theorem C4_pushSense_no_content (altOf : String → Option (List String × List Val))
    (st : LangState) (ts : List Val)
    (htags : (lookup st.sense_data "tags").getD (.list []) = .list ts)
    (hg : truthy (lookup st.sense_data "glosses") = false)
    (hhub : (Val.str "translation-hub") ∉ ts)
    (hng : (Val.str "no-gloss") ∉ ts) :
    pushSense altOf st = some (st, false) :=
  pushSense_no_content altOf st ts htags hg hhub hng

/-- C4 witness: the corrected statement at a concrete scratch sense carrying
only the tag `obsolete`. -/
theorem C4_pushSense_no_content_witness :
    pushSense (fun _ => none)
        ⟨[("tags", Val.list [Val.str "obsolete"]), ("id", Val.str "x")], [], [], [], [], [], none, false, []⟩
      = some (⟨[("tags", Val.list [Val.str "obsolete"]), ("id", Val.str "x")], [], [], [], [], [], none, false, []⟩, false) :=
  C4_pushSense_no_content (fun _ => none)
    ⟨[("tags", Val.list [Val.str "obsolete"]), ("id", Val.str "x")], [], [], [], [], [], none, false, []⟩
    [Val.str "obsolete"] (by decide) (by decide) (by decide) (by decide)

/-- C5: a part-of-speech section whose gloss handling yields zero senses still
emits its entry: the epilogue of `parse_part_of_speech` synthesizes exactly
one dummy sense with no gloss, tagged `no-gloss` plus all header-derived tags,
and the subsequent `push_pos()` wraps it into the finalized entry. -/
theorem C5_no_gloss_fallback (altOf : String → Option (List String × List Val))
    (headerTags : List String) (st : LangState)
    (htags : TagsOk st.sense_data)
    (hg : truthy (lookup st.sense_data "glosses") = false)
    (hhub : (Val.str "translation-hub") ∉ tagList st.sense_data)
    (hng : (Val.str "no-gloss") ∉ tagList st.sense_data)
    (hpd : st.pos_datas = [])
    (hety : ∀ v, lookup st.etym_data "etymology_text" = some v → ∃ s, v = .str s)
    (hsub : subsectionTruthy st.subsection = true)
    (hfresh : ∀ kv ∈ st.pos_data, kv.1 ≠ "senses" ∧ kv.1 ≠ "sounds")
    (hnodup : (st.pos_data.map Prod.fst).Nodup) :
    ∃ sense, (posEpilogue altOf headerTags st).bind (pushPos altOf)
        = some {st with etym_datas := st.etym_datas ++ [("senses", Val.list [Val.dict sense]) :: st.pos_data], pos_data := [], pos_datas := [], sense_data := [], subsection := none} ∧
      truthy (lookup sense "glosses") = false ∧
      (Val.str "no-gloss") ∈ tagList sense ∧
      ∀ t ∈ headerTags, (Val.str t) ∈ tagList sense := by
  obtain ⟨sense, hepi, hgl, hngl, hht⟩ :=
    posEpilogue_no_senses altOf headerTags st htags hg hhub hng hpd hety
  have hpp := pushPos_entry altOf {st with pos_datas := [sense], sense_data := []}
    rfl hsub hfresh hnodup
  refine ⟨sense, ?_, hgl, hngl, hht⟩
  rw [hepi, Option.some_bind']
  exact hpp

/-- C5 witness: the fallback at a concrete noun section with header tag
`masculine` and an empty scratch sense. -/
theorem C5_no_gloss_fallback_witness :
    ∃ sense, (posEpilogue (fun _ => none) ["masculine"]
          ⟨[], [("pos", Val.str "noun")], [], [], [], [], some "noun", false, []⟩).bind
          (pushPos (fun _ => none))
        = some ⟨[], [], [], [], [[("senses", Val.list [Val.dict sense]), ("pos", Val.str "noun")]], [], none, false, []⟩ ∧
      truthy (lookup sense "glosses") = false ∧
      (Val.str "no-gloss") ∈ tagList sense ∧
      ∀ t ∈ ["masculine"], (Val.str t) ∈ tagList sense :=
  C5_no_gloss_fallback (fun _ => none) ["masculine"]
    ⟨[], [("pos", Val.str "noun")], [], [], [], [], some "noun", false, []⟩
    (by rfl) (by rfl) (by decide) (by decide) rfl (fun v hv => nomatch hv)
    (by decide) (by decide) (by decide)

/-- C9 (counterexample): on a finalized entry with pos `noun` that gains a
`word` from the base data, a sound annotated with the non-matching pos `verb`
is nevertheless retained: the form filter pops its `pos` annotation before the
pos filter looks at it. -/
theorem C9_counterexample :
    mergeBase [("pos", Val.str "noun"),
        ("sounds", Val.list [Val.dict [("ipa", Val.str "/a/"), ("pos", Val.str "verb")]])]
      [("word", Val.str "w")]
      = some ([("pos", Val.str "noun"),
          ("sounds", Val.list [Val.dict [("ipa", Val.str "/a/")]]),
          ("word", Val.str "w")], []) := by
  decide

/-- C9 (corrected): on a record with a word, the form filter keeps exactly the
sounds whose `form` annotation (if any) is the word or one of the forms, and
pops the `pos` annotation from every kept sound; the pos filter keeps exactly
the sounds whose `pos` annotation (if any) equals the record's pos, so it only
discriminates on records that still carry pos-annotated sounds (in particular
never after the form filter ran); sounds without the respective annotation
always pass. -/
theorem C9_sound_filters (data : Dict) (w p : Val) (forms formVals : List Val)
    (sds : List Dict)
    (hw : lookup data "word" = some w)
    (hs : lookup data "sounds" = some (Val.list (sds.map Val.dict)))
    (hfl : pyToList ((lookup data "forms").getD (Val.list [])) = some forms)
    (hfv : forms.mapM (fun f => pySubscript f "form") = some formVals) :
    soundsFilter1 data = some (setKey data "sounds"
      (Val.list ((sds.filter (formKeep (w :: formVals))).map
        (fun s => Val.dict (removeKey s "pos"))))) ∧
    (∀ s : Dict, lookup s "form" = none → formKeep (w :: formVals) s = true) ∧
    (∀ data2 : Dict, ∀ sds2 : List Dict,
      lookup data2 "pos" = some p →
      lookup data2 "sounds" = some (Val.list (sds2.map Val.dict)) →
      soundsFilter2 data2 = some (setKey data2 "sounds"
        (Val.list ((sds2.filter (posKeep p)).map Val.dict)))) ∧
    (∀ s : Dict, lookup s "pos" = none → posKeep p s = true) := by
  refine ⟨soundsFilter1_spec data w forms formVals sds hw hs hfl hfv, ?_, ?_, ?_⟩
  · intro s hsf
    unfold formKeep
    rw [hsf]
  · intro data2 sds2 hp2 hs2
    exact soundsFilter2_spec data2 p sds2 hp2 hs2
  · intro s hsp
    unfold posKeep
    rw [hsp]

/-- C9 witness: the corrected filter characterization at a concrete record
whose single sound carries a mismatching pos annotation. -/
theorem C9_sound_filters_witness :
    (soundsFilter1 [("word", Val.str "w"),
        ("sounds", Val.list [Val.dict [("ipa", Val.str "/a/"), ("pos", Val.str "verb")]])]
      = some (setKey [("word", Val.str "w"),
          ("sounds", Val.list [Val.dict [("ipa", Val.str "/a/"), ("pos", Val.str "verb")]])]
        "sounds"
        (Val.list (([[("ipa", Val.str "/a/"), ("pos", Val.str "verb")]].filter
            (formKeep (Val.str "w" :: []))).map
          (fun s => Val.dict (removeKey s "pos")))))) ∧
    (∀ s : Dict, lookup s "form" = none → formKeep (Val.str "w" :: []) s = true) ∧
    (∀ data2 : Dict, ∀ sds2 : List Dict,
      lookup data2 "pos" = some (Val.str "noun") →
      lookup data2 "sounds" = some (Val.list (sds2.map Val.dict)) →
      soundsFilter2 data2 = some (setKey data2 "sounds"
        (Val.list ((sds2.filter (posKeep (Val.str "noun"))).map Val.dict)))) ∧
    (∀ s : Dict, lookup s "pos" = none → posKeep (Val.str "noun") s = true) :=
  C9_sound_filters [("word", Val.str "w"),
      ("sounds", Val.list [Val.dict [("ipa", Val.str "/a/"), ("pos", Val.str "verb")]])]
    (Val.str "w") (Val.str "noun") [] []
    [[("ipa", Val.str "/a/"), ("pos", Val.str "verb")]]
    (by decide) (by decide) (by decide) (by decide)

/-- C6 (counterexample): the Korean extractor's numeric-suffix stripping
(`re.sub` in `ko/page.py parse_section`) strips a purely numeric heading down
to the empty string instead of keeping at least one token. -/
theorem C6_counterexample : koStripNumSuffix "2" = "" := by
  decide

/-- C6 (corrected): in the English extractor a heading whose digit-stripped
title is in the part-of-speech table classifies as that POS, the stripping
loop tolerates multiple trailing numeric tokens and always keeps at least one
token (a purely numeric heading is left alone); but the Korean extractor's
regex stripping reduces a purely numeric heading to the empty string. -/
theorem C6_numeric_suffix_stripping (cfg : SectionConfig) (pos p : String)
    (isRec : Bool) (t : String)
    (h1 : startsWithAny t cfg.pronunciationSubtitles = false)
    (h2 : startsWithAny t cfg.etymologySubtitles = false)
    (h3 : (cfg.descendants == some t && cfg.captureDescendants) = false)
    (h4 : (cfg.protoRootDerivedSections.contains t && pos == "root"
        && isRec && cfg.captureDescendants) = false)
    (h5 : (cfg.translations == some t) = false)
    (h6 : cfg.ignoredSections.contains t = false)
    (h7 : cfg.inflectionSections.contains t = false)
    (hpos : lookupStr cfg.posSubtitles (stripNumSuffix t) = some p) :
    classifySection cfg pos isRec t = SectionKind.pos p ∧
    (∀ s : List String, s ≠ [] → stripTokens s ≠ []) ∧
    stripNumSuffix "noun 2" = "noun" ∧
    stripNumSuffix "noun 1 2" = "noun" ∧
    stripNumSuffix "2" = "2" ∧
    koStripNumSuffix "2" = "" := by
  refine ⟨?_, fun s hs => stripTokens_ne_nil s hs, by decide, by decide,
    by decide, by decide⟩
  unfold classifySection
  rw [if_neg (by rw [h1]; exact Bool.false_ne_true),
    if_neg (by rw [h2]; exact Bool.false_ne_true),
    if_neg (by rw [h3]; exact Bool.false_ne_true),
    if_neg (by rw [h4]; exact Bool.false_ne_true),
    if_neg (by rw [h5]; exact Bool.false_ne_true),
    if_neg (by rw [h6]; exact Bool.false_ne_true),
    if_neg (by rw [h7]; exact Bool.false_ne_true),
    hpos]

/-- C6 witness: the heading `noun 2` with `noun` in the POS table. -/
theorem C6_numeric_suffix_stripping_witness :
    classifySection
        ⟨["pronunciation"], ["etymology"], some "descendants", [],
          some "translations", [], [], [("noun", "noun")], [],
          some "compounds", true⟩
        "" false "noun 2" = SectionKind.pos "noun" ∧
    (∀ s : List String, s ≠ [] → stripTokens s ≠ []) ∧
    stripNumSuffix "noun 2" = "noun" ∧
    stripNumSuffix "noun 1 2" = "noun" ∧
    stripNumSuffix "2" = "2" ∧
    koStripNumSuffix "2" = "" :=
  C6_numeric_suffix_stripping
    ⟨["pronunciation"], ["etymology"], some "descendants", [],
      some "translations", [], [], [("noun", "noun")], [],
      some "compounds", true⟩
    "" "noun" false "noun 2" (by decide) (by decide) (by decide) (by decide)
    (by decide) (by decide) (by decide) (by decide)

/-- C7 (counterexample): a heading that appears both in the POS table and as
the exact translations title classifies as translations — the "other section"
tables are consulted before the part-of-speech table, not after it. -/
theorem C7_counterexample :
    classifySection
        ⟨["pronunciation"], ["etymology"], some "descendants", [],
          some "noun", [], [], [("noun", "noun")], [],
          some "compounds", true⟩
        "" false "noun" = SectionKind.translations ∧
    SectionKind.translations ≠ SectionKind.pos "noun" := by
  decide

/-- C7 (corrected): the classifier of `process_children` resolves a heading
in this order: pronunciation beginning, etymology beginning, descendants,
proto-root sections, translations, ignored sections, inflection sections —
all on the unstripped title — and only then the digit-stripped title against
the part-of-speech table, the linkage table and the compounds title, with
unrecognized as the final fallback. -/
theorem C7_section_lookup_order (cfg : SectionConfig) (pos : String)
    (isRec : Bool) (t : String) :
    (startsWithAny t cfg.pronunciationSubtitles = true →
      classifySection cfg pos isRec t = SectionKind.pronunciation) ∧
    (startsWithAny t cfg.pronunciationSubtitles = false →
      startsWithAny t cfg.etymologySubtitles = true →
      classifySection cfg pos isRec t = SectionKind.etymology) ∧
    (startsWithAny t cfg.pronunciationSubtitles = false →
      startsWithAny t cfg.etymologySubtitles = false →
      (cfg.descendants == some t && cfg.captureDescendants) = true →
      classifySection cfg pos isRec t = SectionKind.descendants) ∧
    (startsWithAny t cfg.pronunciationSubtitles = false →
      startsWithAny t cfg.etymologySubtitles = false →
      (cfg.descendants == some t && cfg.captureDescendants) = false →
      (cfg.protoRootDerivedSections.contains t && pos == "root"
        && isRec && cfg.captureDescendants) = true →
      classifySection cfg pos isRec t = SectionKind.protoRoot) ∧
    (startsWithAny t cfg.pronunciationSubtitles = false →
      startsWithAny t cfg.etymologySubtitles = false →
      (cfg.descendants == some t && cfg.captureDescendants) = false →
      (cfg.protoRootDerivedSections.contains t && pos == "root"
        && isRec && cfg.captureDescendants) = false →
      (cfg.translations == some t) = true →
      classifySection cfg pos isRec t = SectionKind.translations) ∧
    (startsWithAny t cfg.pronunciationSubtitles = false →
      startsWithAny t cfg.etymologySubtitles = false →
      (cfg.descendants == some t && cfg.captureDescendants) = false →
      (cfg.protoRootDerivedSections.contains t && pos == "root"
        && isRec && cfg.captureDescendants) = false →
      (cfg.translations == some t) = false →
      cfg.ignoredSections.contains t = true →
      classifySection cfg pos isRec t = SectionKind.ignored) ∧
    (startsWithAny t cfg.pronunciationSubtitles = false →
      startsWithAny t cfg.etymologySubtitles = false →
      (cfg.descendants == some t && cfg.captureDescendants) = false →
      (cfg.protoRootDerivedSections.contains t && pos == "root"
        && isRec && cfg.captureDescendants) = false →
      (cfg.translations == some t) = false →
      cfg.ignoredSections.contains t = false →
      cfg.inflectionSections.contains t = true →
      classifySection cfg pos isRec t = SectionKind.inflection) ∧
    (startsWithAny t cfg.pronunciationSubtitles = false →
      startsWithAny t cfg.etymologySubtitles = false →
      (cfg.descendants == some t && cfg.captureDescendants) = false →
      (cfg.protoRootDerivedSections.contains t && pos == "root"
        && isRec && cfg.captureDescendants) = false →
      (cfg.translations == some t) = false →
      cfg.ignoredSections.contains t = false →
      cfg.inflectionSections.contains t = false →
      (∀ p, lookupStr cfg.posSubtitles (stripNumSuffix t) = some p →
        classifySection cfg pos isRec t = SectionKind.pos p) ∧
      (lookupStr cfg.posSubtitles (stripNumSuffix t) = none →
        (∀ rel, lookupStr cfg.linkageSubtitles (stripNumSuffix t) = some rel →
          classifySection cfg pos isRec t = SectionKind.linkage rel) ∧
        (lookupStr cfg.linkageSubtitles (stripNumSuffix t) = none →
          ((cfg.compounds == some (stripNumSuffix t)) = true →
            classifySection cfg pos isRec t = SectionKind.compounds) ∧
          ((cfg.compounds == some (stripNumSuffix t)) = false →
            classifySection cfg pos isRec t = SectionKind.unrecognized)))) := by
  refine ⟨?_, ?_, ?_, ?_, ?_, ?_, ?_, ?_⟩
  · intro h1
    unfold classifySection
    rw [if_pos h1]
  · intro h1 h2
    unfold classifySection
    rw [if_neg (by rw [h1]; exact Bool.false_ne_true), if_pos h2]
  · intro h1 h2 h3
    unfold classifySection
    rw [if_neg (by rw [h1]; exact Bool.false_ne_true),
      if_neg (by rw [h2]; exact Bool.false_ne_true), if_pos h3]
  · intro h1 h2 h3 h4
    unfold classifySection
    rw [if_neg (by rw [h1]; exact Bool.false_ne_true),
      if_neg (by rw [h2]; exact Bool.false_ne_true),
      if_neg (by rw [h3]; exact Bool.false_ne_true), if_pos h4]
  · intro h1 h2 h3 h4 h5
    unfold classifySection
    rw [if_neg (by rw [h1]; exact Bool.false_ne_true),
      if_neg (by rw [h2]; exact Bool.false_ne_true),
      if_neg (by rw [h3]; exact Bool.false_ne_true),
      if_neg (by rw [h4]; exact Bool.false_ne_true), if_pos h5]
  · intro h1 h2 h3 h4 h5 h6
    unfold classifySection
    rw [if_neg (by rw [h1]; exact Bool.false_ne_true),
      if_neg (by rw [h2]; exact Bool.false_ne_true),
      if_neg (by rw [h3]; exact Bool.false_ne_true),
      if_neg (by rw [h4]; exact Bool.false_ne_true),
      if_neg (by rw [h5]; exact Bool.false_ne_true), if_pos h6]
  · intro h1 h2 h3 h4 h5 h6 h7
    unfold classifySection
    rw [if_neg (by rw [h1]; exact Bool.false_ne_true),
      if_neg (by rw [h2]; exact Bool.false_ne_true),
      if_neg (by rw [h3]; exact Bool.false_ne_true),
      if_neg (by rw [h4]; exact Bool.false_ne_true),
      if_neg (by rw [h5]; exact Bool.false_ne_true),
      if_neg (by rw [h6]; exact Bool.false_ne_true), if_pos h7]
  · intro h1 h2 h3 h4 h5 h6 h7
    have hbase : ∀ k : SectionKind,
        (match lookupStr cfg.posSubtitles (stripNumSuffix t) with
          | some p => SectionKind.pos p
          | none =>
            match lookupStr cfg.linkageSubtitles (stripNumSuffix t) with
            | some rel => SectionKind.linkage rel
            | none =>
              if cfg.compounds == some (stripNumSuffix t) then SectionKind.compounds
              else SectionKind.unrecognized) = k →
        classifySection cfg pos isRec t = k := by
      intro k hk
      unfold classifySection
      rw [if_neg (by rw [h1]; exact Bool.false_ne_true),
        if_neg (by rw [h2]; exact Bool.false_ne_true),
        if_neg (by rw [h3]; exact Bool.false_ne_true),
        if_neg (by rw [h4]; exact Bool.false_ne_true),
        if_neg (by rw [h5]; exact Bool.false_ne_true),
        if_neg (by rw [h6]; exact Bool.false_ne_true),
        if_neg (by rw [h7]; exact Bool.false_ne_true)]
      exact hk
    refine ⟨?_, ?_⟩
    · intro p hp
      exact hbase _ (by rw [hp])
    · intro hp
      refine ⟨?_, ?_⟩
      · intro rel hrel
        exact hbase _ (by rw [hp, hrel])
      · intro hrel
        refine ⟨?_, ?_⟩
        · intro hc
          exact hbase _ (by rw [hp, hrel]; exact if_pos hc)
        · intro hc
          exact hbase _ (by rw [hp, hrel]; exact if_neg (by rw [hc]; exact Bool.false_ne_true))

/-- C2 witness: the corrected statement at the concrete conflict
`{"pos": "noun"}` vs `{"pos": "verb"}`. -/
theorem C2_scalar_conflict_keeps_destination_witness :
    lookup [("pos", Val.str "noun")] "pos" = some (Val.str "noun") ∧ "pos" ∈ ["pos"] :=
  C2_scalar_conflict_keeps_destination [("pos", Val.str "noun")]
    [("pos", Val.str "verb")] "pos" (Val.str "noun") (Val.str "verb")
    (by decide) (by decide) (by decide) (by decide) (by decide) (by decide)
    (by decide) [("pos", Val.str "noun")] ["pos"] (by decide)

/-!
## Mutable containers and `copy.deepcopy` in `merge_base` (C3)

To talk about aliasing at all, Python's mutable containers are modelled with
an explicit heap: a value is a scalar or the address of a heap cell holding a
list or dict of values; mutating a cell is updating the heap at its address.
`merge_base` copies every source value with `copy.deepcopy` before storing
it, so every cell reachable from a stored copy is freshly allocated, and
mutating any pre-existing cell — in particular any container of the source
scope — cannot change what the destination renders to.
-/

/-- A Python value: a scalar, or a reference to a mutable container. -/
inductive HVal where
  | str (s : String)
  | num (n : Int)
  | addr (a : Nat)
  deriving DecidableEq, Repr

/-- A mutable container stored in a heap cell. -/
inductive HObj where
  | list (xs : List HVal)
  | dict (kvs : List (String × HVal))
  deriving DecidableEq, Repr

def lookupCell : List (Nat × HObj) → Nat → Option HObj
  | [], _ => none
  | (a', o) :: rest, a => if a' = a then some o else lookupCell rest a

def setCell : List (Nat × HObj) → Nat → HObj → List (Nat × HObj)
  | [], _, _ => []
  | (a', o') :: rest, a, o =>
    if a' = a then (a', o) :: rest else (a', o') :: setCell rest a o

/-- The heap: allocated cells and the next fresh address. -/
structure Heap where
  cells : List (Nat × HObj)
  next : Nat
  deriving DecidableEq, Repr

def Heap.get (h : Heap) (a : Nat) : Option HObj :=
  lookupCell h.cells a

/-- In-place mutation of the container at address `a`. -/
def Heap.set (h : Heap) (a : Nat) (o : HObj) : Heap :=
  ⟨setCell h.cells a o, h.next⟩

/-- Allocation of a fresh container. -/
def Heap.alloc (h : Heap) (o : HObj) : Heap × Nat :=
  (⟨h.cells ++ [(h.next, o)], h.next + 1⟩, h.next)

/-- All addresses in a value are below `n`. -/
def HVal.bnd (n : Nat) : HVal → Bool
  | .addr a => decide (a < n)
  | _ => true

/-- All addresses in a container are below `n`. -/
def HObj.bnd (n : Nat) : HObj → Bool
  | .list xs => xs.all (HVal.bnd n)
  | .dict kvs => kvs.all (fun kv => HVal.bnd n kv.2)

/-- Heap well-formedness: every cell sits below `next` and references only
addresses below `next`. -/
def Heap.WF (h : Heap) : Prop :=
  ∀ c ∈ h.cells, c.1 < h.next ∧ HObj.bnd h.next c.2 = true

/-- `h'` contains everything `h` does, at the same addresses. -/
def Extends (h h' : Heap) : Prop :=
  h.next ≤ h'.next ∧ ∀ a, a < h.next → h'.get a = h.get a

theorem Extends.refl (h : Heap) : Extends h h :=
  ⟨Nat.le_refl _, fun _ _ => rfl⟩

theorem Extends.trans {h1 h2 h3 : Heap} (e1 : Extends h1 h2) (e2 : Extends h2 h3) :
    Extends h1 h3 :=
  ⟨Nat.le_trans e1.1 e2.1, fun a ha => by
    rw [e2.2 a (Nat.lt_of_lt_of_le ha e1.1), e1.2 a ha]⟩

theorem lookupCell_cons (a' : Nat) (o' : HObj) (rest : List (Nat × HObj)) (a : Nat) :
    lookupCell ((a', o') :: rest) a
      = if a' = a then some o' else lookupCell rest a := rfl

theorem setCell_cons (a' : Nat) (o' : HObj) (rest : List (Nat × HObj)) (a : Nat) (o : HObj) :
    setCell ((a', o') :: rest) a o
      = if a' = a then (a', o) :: rest else (a', o') :: setCell rest a o := rfl

theorem get_set_ne (h : Heap) (a b : Nat) (o : HObj) (hne : a ≠ b) :
    (h.set b o).get a = h.get a := by
  show lookupCell (setCell h.cells b o) a = lookupCell h.cells a
  induction h.cells with
  | nil => rfl
  | cons c rest ih =>
    obtain ⟨a', o'⟩ := c
    rw [setCell_cons, lookupCell_cons]
    by_cases hb : a' = b
    · rw [if_pos hb, lookupCell_cons]
      have hna : ¬(a' = a) := fun hc => hne ((hc.symm.trans hb))
      rw [if_neg hna, if_neg hna]
    · rw [if_neg hb, lookupCell_cons]
      by_cases hc : a' = a
      · rw [if_pos hc, if_pos hc]
      · rw [if_neg hc, if_neg hc]
        exact ih

theorem lookupCell_append (cs ds : List (Nat × HObj)) (a : Nat) :
    lookupCell (cs ++ ds) a
      = match lookupCell cs a with
        | some o => some o
        | none => lookupCell ds a := by
  induction cs with
  | nil => rfl
  | cons c rest ih =>
    obtain ⟨a', o'⟩ := c
    rw [List.cons_append, lookupCell_cons, lookupCell_cons]
    by_cases hc : a' = a
    · rw [if_pos hc, if_pos hc]
    · rw [if_neg hc, if_neg hc, ih]

theorem lookupCell_none_of_lt (cs : List (Nat × HObj)) (n : Nat)
    (hlt : ∀ c ∈ cs, c.1 < n) : lookupCell cs n = none := by
  induction cs with
  | nil => rfl
  | cons c rest ih =>
    obtain ⟨a', o'⟩ := c
    have ha : a' < n := (hlt (a', o') (by simp))
    show (if a' = n then some o' else lookupCell rest n) = none
    rw [if_neg (Nat.ne_of_lt ha)]
    exact ih (fun c hc => hlt c (by simp [hc]))

theorem get_alloc_old (h : Heap) (o : HObj) (a : Nat) (ha : a ≠ h.next) :
    (h.alloc o).1.get a = h.get a := by
  show lookupCell (h.cells ++ [(h.next, o)]) a = lookupCell h.cells a
  rw [lookupCell_append]
  cases hl : lookupCell h.cells a with
  | some o' => rfl
  | none =>
    show lookupCell [(h.next, o)] a = none
    show (if h.next = a then some o else none) = none
    rw [if_neg (fun hc => ha hc.symm)]

theorem get_alloc_new (h : Heap) (o : HObj) (hwf : Heap.WF h) :
    (h.alloc o).1.get h.next = some o := by
  show lookupCell (h.cells ++ [(h.next, o)]) h.next = some o
  rw [lookupCell_append, lookupCell_none_of_lt h.cells h.next (fun c hc => (hwf c hc).1)]
  show (if h.next = h.next then some o else none) = some o
  rw [if_pos rfl]

theorem extends_alloc (h : Heap) (o : HObj) : Extends h (h.alloc o).1 :=
  ⟨Nat.le_succ _, fun a ha => get_alloc_old h o a (Nat.ne_of_lt ha)⟩

theorem bnd_mono {n m : Nat} (hnm : n ≤ m) (v : HVal) (hv : HVal.bnd n v = true) :
    HVal.bnd m v = true := by
  cases v with
  | addr a =>
    simp only [HVal.bnd, decide_eq_true_eq] at hv ⊢
    exact Nat.lt_of_lt_of_le hv hnm
  | str s => rfl
  | num k => rfl

theorem obj_bnd_mono {n m : Nat} (hnm : n ≤ m) (o : HObj) (ho : HObj.bnd n o = true) :
    HObj.bnd m o = true := by
  cases o with
  | list xs =>
    simp only [HObj.bnd, List.all_eq_true] at ho ⊢
    exact fun x hx => bnd_mono hnm x (ho x hx)
  | dict kvs =>
    simp only [HObj.bnd, List.all_eq_true] at ho ⊢
    exact fun kv hkv => bnd_mono hnm kv.2 (ho kv hkv)

theorem WF_alloc (h : Heap) (o : HObj) (hwf : Heap.WF h)
    (ho : HObj.bnd h.next o = true) : Heap.WF (h.alloc o).1 := by
  intro c hc
  rcases List.mem_append.mp hc with hm | hm
  · exact ⟨Nat.lt_succ_of_lt (hwf c hm).1,
      obj_bnd_mono (Nat.le_succ _) c.2 (hwf c hm).2⟩
  · rw [List.mem_singleton.mp hm]
    exact ⟨Nat.lt_succ_self _, obj_bnd_mono (Nat.le_succ _) o ho⟩

theorem WF_set (h : Heap) (b : Nat) (o : HObj) (hwf : Heap.WF h)
    (ho : HObj.bnd h.next o = true) : Heap.WF (h.set b o) := by
  intro c hc
  show c.1 < h.next ∧ HObj.bnd h.next c.2 = true
  have : ∀ cs : List (Nat × HObj), (∀ d ∈ cs, d.1 < h.next ∧ HObj.bnd h.next d.2 = true) →
      ∀ d ∈ setCell cs b o, d.1 < h.next ∧ HObj.bnd h.next d.2 = true := by
    intro cs
    induction cs with
    | nil => intro _ d hd; cases hd
    | cons e rest ih =>
      intro hcs d hd
      obtain ⟨a', o'⟩ := e
      rw [setCell_cons] at hd
      by_cases hb : a' = b
      · rw [if_pos hb] at hd
        rcases List.mem_cons.mp hd with hm | hm
        · subst hm
          exact ⟨(hcs (a', o') (by simp)).1, ho⟩
        · exact hcs d (by simp [hm])
      · rw [if_neg hb] at hd
        rcases List.mem_cons.mp hd with hm | hm
        · subst hm
          exact hcs (a', o') (by simp)
        · exact ih (fun d hd => hcs d (by simp [hd])) d hm
  exact this h.cells hwf c hc

theorem get_mem (h : Heap) (a : Nat) (o : HObj) (hg : h.get a = some o) :
    (a, o) ∈ h.cells := by
  show (a, o) ∈ h.cells
  have : ∀ cs : List (Nat × HObj), lookupCell cs a = some o → (a, o) ∈ cs := by
    intro cs
    induction cs with
    | nil => intro hc; cases hc
    | cons c rest ih =>
      intro hc
      obtain ⟨a', o'⟩ := c
      rw [lookupCell_cons] at hc
      by_cases he : a' = a
      · rw [if_pos he] at hc
        cases hc
        subst he
        simp
      · rw [if_neg he] at hc
        exact List.mem_cons_of_mem _ (ih hc)
  exact this h.cells hg

theorem WF_get_bnd (h : Heap) (a : Nat) (o : HObj) (hwf : Heap.WF h)
    (hg : h.get a = some o) : HObj.bnd h.next o = true :=
  (hwf (a, o) (get_mem h a o hg)).2

/-- Rendering a heap value into a pure `Val`: dereference containers up to
`rf` indirections. -/
def render (rf : Nat) (h : Heap) (v : HVal) : Option Val :=
  match rf, v with
  | 0, _ => none
  | _ + 1, .str s => some (.str s)
  | _ + 1, .num n => some (.num n)
  | rf + 1, .addr a =>
    (h.get a).bind (fun o =>
      match o with
      | .list xs =>
        (xs.mapM (fun x => render rf h x)).bind (fun vs => some (.list vs))
      | .dict kvs =>
        (kvs.mapM (fun kv => (render rf h kv.2).bind
          (fun w => some (kv.1, w)))).bind (fun ws => some (.dict ws)))
termination_by rf

/-- The addresses visited when rendering `v` up to `rf` indirections. -/
def reachL (rf : Nat) (h : Heap) (v : HVal) : List Nat :=
  match rf, v with
  | 0, _ => []
  | _ + 1, .str _ => []
  | _ + 1, .num _ => []
  | rf + 1, .addr a =>
    a :: (match h.get a with
      | some (.list xs) => (xs.map (fun x => reachL rf h x)).flatten
      | some (.dict kvs) => (kvs.map (fun kv => reachL rf h kv.2)).flatten
      | none => [])
termination_by rf

theorem render_addr (rf : Nat) (h : Heap) (a : Nat) :
    render (rf + 1) h (.addr a)
      = (h.get a).bind (fun o =>
        match o with
        | .list xs =>
          (xs.mapM (fun x => render rf h x)).bind (fun vs => some (.list vs))
        | .dict kvs =>
          (kvs.mapM (fun kv => (render rf h kv.2).bind
            (fun w => some (kv.1, w)))).bind (fun ws => some (.dict ws))) := by
  rw [render]

theorem reachL_addr (rf : Nat) (h : Heap) (a : Nat) :
    reachL (rf + 1) h (.addr a)
      = a :: (match h.get a with
        | some (.list xs) => (xs.map (fun x => reachL rf h x)).flatten
        | some (.dict kvs) => (kvs.map (fun kv => reachL rf h kv.2)).flatten
        | none => []) := by
  rw [reachL]

theorem reachL_zero (h : Heap) (v : HVal) : reachL 0 h v = [] := by
  cases v <;> rw [reachL]

theorem render_zero (h : Heap) (v : HVal) : render 0 h v = none := by
  cases v <;> rw [render]

theorem reachL_str (rf : Nat) (h : Heap) (s : String) :
    reachL (rf + 1) h (.str s) = [] := by
  rw [reachL]

theorem reachL_num (rf : Nat) (h : Heap) (n : Int) :
    reachL (rf + 1) h (.num n) = [] := by
  rw [reachL]

theorem render_str (rf : Nat) (h : Heap) (s : String) :
    render (rf + 1) h (.str s) = some (.str s) := by
  rw [render]

theorem render_num (rf : Nat) (h : Heap) (n : Int) :
    render (rf + 1) h (.num n) = some (.num n) := by
  rw [render]

theorem map_congr_mem {α β : Type} (f g : α → β) :
    ∀ l : List α, (∀ x ∈ l, f x = g x) → l.map f = l.map g := by
  intro l
  induction l with
  | nil => intro; rfl
  | cons x rest ih =>
    intro hfg
    rw [List.map_cons, List.map_cons, hfg x (by simp),
      ih (fun y hy => hfg y (by simp [hy]))]

theorem mapM_congr_mem {α β : Type} (f g : α → Option β) :
    ∀ l : List α, (∀ x ∈ l, f x = g x) → l.mapM f = l.mapM g := by
  intro l
  induction l with
  | nil => intro; rfl
  | cons x rest ih =>
    intro hfg
    rw [List.mapM_cons, List.mapM_cons, hfg x (by simp),
      ih (fun y hy => hfg y (by simp [hy]))]

/-- On a well-formed heap, rendering and reachability of a bounded value are
unchanged by extending the heap with fresh cells. -/
theorem reach_render_ext : ∀ (rf : Nat) (h h' : Heap) (v : HVal),
    Extends h h' → Heap.WF h → HVal.bnd h.next v = true →
    reachL rf h' v = reachL rf h v ∧ render rf h' v = render rf h v := by
  intro rf
  induction rf with
  | zero =>
    intro h h' v _ _ _
    exact ⟨by rw [reachL_zero, reachL_zero], by rw [render_zero, render_zero]⟩
  | succ rf ih =>
    intro h h' v hext hwf hv
    cases v with
    | str s => exact ⟨by rw [reachL_str, reachL_str], by rw [render_str, render_str]⟩
    | num n => exact ⟨by rw [reachL_num, reachL_num], by rw [render_num, render_num]⟩
    | addr a =>
      have ha : a < h.next := by simpa [HVal.bnd] using hv
      have hga : h'.get a = h.get a := hext.2 a ha
      rw [reachL_addr, reachL_addr, render_addr, render_addr, hga]
      cases hgo : h.get a with
      | none => exact ⟨rfl, rfl⟩
      | some o =>
        have hob := WF_get_bnd h a o hwf hgo
        cases o with
        | list xs =>
          have hxs : ∀ x ∈ xs, HVal.bnd h.next x = true := by
            simpa [HObj.bnd, List.all_eq_true] using hob
          constructor
          · show a :: (xs.map (fun x => reachL rf h' x)).flatten
              = a :: (xs.map (fun x => reachL rf h x)).flatten
            rw [map_congr_mem _ _ xs (fun x hx => (ih h h' x hext hwf (hxs x hx)).1)]
          · show (xs.mapM (fun x => render rf h' x)).bind _
              = (xs.mapM (fun x => render rf h x)).bind _
            rw [mapM_congr_mem _ _ xs (fun x hx => (ih h h' x hext hwf (hxs x hx)).2)]
        | dict kvs =>
          have hxs : ∀ kv ∈ kvs, HVal.bnd h.next kv.2 = true := by
            simpa [HObj.bnd, List.all_eq_true] using hob
          constructor
          · show a :: (kvs.map (fun kv => reachL rf h' kv.2)).flatten
              = a :: (kvs.map (fun kv => reachL rf h kv.2)).flatten
            rw [map_congr_mem _ _ kvs
              (fun kv hkv => (ih h h' kv.2 hext hwf (hxs kv hkv)).1)]
          · show (kvs.mapM (fun kv => (render rf h' kv.2).bind
                (fun w => some (kv.1, w)))).bind _
              = (kvs.mapM (fun kv => (render rf h kv.2).bind
                (fun w => some (kv.1, w)))).bind _
            rw [mapM_congr_mem _ _ kvs
              (fun kv hkv => by rw [(ih h h' kv.2 hext hwf (hxs kv hkv)).2])]

/-- Mutating a cell that rendering never visits does not change the result of
rendering. -/
theorem render_set_of_not_reach : ∀ (rf : Nat) (h : Heap) (v : HVal) (b : Nat)
    (o : HObj), b ∉ reachL rf h v → render rf (h.set b o) v = render rf h v := by
  intro rf
  induction rf with
  | zero => intro h v b o _; rw [render_zero, render_zero]
  | succ rf ih =>
    intro h v b o hb
    cases v with
    | str s => rw [render_str, render_str]
    | num n => rw [render_num, render_num]
    | addr a =>
      rw [reachL_addr] at hb
      have hba : ¬(b = a) := fun hc => hb (by rw [hc]; exact List.mem_cons_self _ _)
      rw [render_addr, render_addr,
        show (h.set b o).get a = h.get a from get_set_ne h a b o (fun hc => hba hc.symm)]
      cases hgo : h.get a with
      | none => rfl
      | some obj =>
        rw [hgo] at hb
        cases obj with
        | list xs =>
          have hx : ∀ x ∈ xs, b ∉ reachL rf h x := by
            intro x hx hbx
            exact hb (List.mem_cons_of_mem _ (by
              show b ∈ (xs.map (fun x => reachL rf h x)).flatten
              exact List.mem_flatten.mpr
                ⟨reachL rf h x, List.mem_map.mpr ⟨x, hx, rfl⟩, hbx⟩))
          show (xs.mapM (fun x => render rf (h.set b o) x)).bind _
            = (xs.mapM (fun x => render rf h x)).bind _
          rw [mapM_congr_mem _ _ xs (fun x hx' => ih h x b o (hx x hx'))]
        | dict kvs =>
          have hx : ∀ kv ∈ kvs, b ∉ reachL rf h kv.2 := by
            intro kv hkv hbx
            exact hb (List.mem_cons_of_mem _ (by
              show b ∈ (kvs.map (fun kv => reachL rf h kv.2)).flatten
              exact List.mem_flatten.mpr
                ⟨reachL rf h kv.2, List.mem_map.mpr ⟨kv, hkv, rfl⟩, hbx⟩))
          show (kvs.mapM (fun kv => (render rf (h.set b o) kv.2).bind
              (fun w => some (kv.1, w)))).bind _
            = (kvs.mapM (fun kv => (render rf h kv.2).bind
              (fun w => some (kv.1, w)))).bind _
          rw [mapM_congr_mem _ _ kvs
            (fun kv hkv => by rw [ih h kv.2 b o (hx kv hkv)])]

/-- `copy.deepcopy`: scalars are returned as-is, containers are copied
recursively bottom-up, allocating a fresh cell for every container. -/
def deepcopy (cf : Nat) (h : Heap) (v : HVal) : Option (Heap × HVal) :=
  match cf, v with
  | 0, _ => none
  | _ + 1, .str s => some (h, .str s)
  | _ + 1, .num n => some (h, .num n)
  | cf + 1, .addr a =>
    (h.get a).bind (fun o =>
      match o with
      | .list xs =>
        (xs.foldlM (fun acc x => (deepcopy cf acc.1 x).bind
          (fun r => some (r.1, acc.2 ++ [r.2]))) (h, ([] : List HVal))).bind
          (fun r => some ((r.1.alloc (.list r.2)).1, .addr r.1.next))
      | .dict kvs =>
        (kvs.foldlM (fun acc kv => (deepcopy cf acc.1 kv.2).bind
          (fun r => some (r.1, acc.2 ++ [(kv.1, r.2)])))
          (h, ([] : List (String × HVal)))).bind
          (fun r => some ((r.1.alloc (.dict r.2)).1, .addr r.1.next)))
termination_by cf

theorem deepcopy_zero (h : Heap) (v : HVal) : deepcopy 0 h v = none := by
  cases v <;> rw [deepcopy]

theorem deepcopy_str (cf : Nat) (h : Heap) (s : String) :
    deepcopy (cf + 1) h (.str s) = some (h, .str s) := by
  rw [deepcopy]

theorem deepcopy_num (cf : Nat) (h : Heap) (n : Int) :
    deepcopy (cf + 1) h (.num n) = some (h, .num n) := by
  rw [deepcopy]

theorem deepcopy_addr (cf : Nat) (h : Heap) (a : Nat) :
    deepcopy (cf + 1) h (.addr a)
      = (h.get a).bind (fun o =>
        match o with
        | .list xs =>
          (xs.foldlM (fun acc x => (deepcopy cf acc.1 x).bind
            (fun r => some (r.1, acc.2 ++ [r.2]))) (h, ([] : List HVal))).bind
            (fun r => some ((r.1.alloc (.list r.2)).1, .addr r.1.next))
        | .dict kvs =>
          (kvs.foldlM (fun acc kv => (deepcopy cf acc.1 kv.2).bind
            (fun r => some (r.1, acc.2 ++ [(kv.1, r.2)])))
            (h, ([] : List (String × HVal)))).bind
            (fun r => some ((r.1.alloc (.dict r.2)).1, .addr r.1.next))) := by
  rw [deepcopy]

theorem reachL_str_all (rf : Nat) (h : Heap) (s : String) :
    reachL rf h (.str s) = [] := by
  cases rf
  · rw [reachL_zero]
  · rw [reachL_str]

theorem reachL_num_all (rf : Nat) (h : Heap) (n : Int) :
    reachL rf h (.num n) = [] := by
  cases rf
  · rw [reachL_zero]
  · rw [reachL_num]

/-- The specification of `deepcopy` on a well-formed heap: the heap is only
extended, well-formedness is preserved, and every address the copy can reach
is freshly allocated. -/
theorem deepcopy_spec : ∀ (cf : Nat) (h : Heap) (v : HVal) (h' : Heap) (v' : HVal),
    Heap.WF h → HVal.bnd h.next v = true →
    deepcopy cf h v = some (h', v') →
    Extends h h' ∧ Heap.WF h' ∧ HVal.bnd h'.next v' = true ∧
    (∀ rf b, b ∈ reachL rf h' v' → h.next ≤ b) := by
  intro cf
  induction cf with
  | zero =>
    intro h v h' v' _ _ hc
    rw [deepcopy_zero] at hc
    cases hc
  | succ cf ih =>
    intro h v h' v' hwf hv hc
    cases v with
    | str s =>
      rw [deepcopy_str] at hc
      cases hc
      refine ⟨Extends.refl h, hwf, rfl, ?_⟩
      intro rf b hb
      rw [reachL_str_all] at hb
      cases hb
    | num n =>
      rw [deepcopy_num] at hc
      cases hc
      refine ⟨Extends.refl h, hwf, rfl, ?_⟩
      intro rf b hb
      rw [reachL_num_all] at hb
      cases hb
    | addr a =>
      rw [deepcopy_addr] at hc
      cases hgo : h.get a with
      | none =>
        rw [hgo] at hc
        cases hc
      | some o =>
        rw [hgo] at hc
        have hob := WF_get_bnd h a o hwf hgo
        cases o with
        | list xs =>
          simp only [Option.some_bind'] at hc
          have hxs : ∀ x ∈ xs, HVal.bnd h.next x = true := by
            simpa [HObj.bnd, List.all_eq_true] using hob
          have foldSpec : ∀ (l : List HVal) (h0 : Heap) (acc : List HVal),
              Heap.WF h0 → Extends h h0 →
              (∀ x ∈ l, HVal.bnd h.next x = true) →
              (∀ y ∈ acc, HVal.bnd h0.next y = true ∧
                ∀ rf b, b ∈ reachL rf h0 y → h.next ≤ b) →
              ∀ res, l.foldlM (fun acc x => (deepcopy cf acc.1 x).bind
                  (fun r => some (r.1, acc.2 ++ [r.2]))) (h0, acc) = some res →
              Extends h0 res.1 ∧ Heap.WF res.1 ∧
              ∀ y ∈ res.2, HVal.bnd res.1.next y = true ∧
                ∀ rf b, b ∈ reachL rf res.1 y → h.next ≤ b := by
            intro l
            induction l with
            | nil =>
              intro h0 acc hwf0 _ _ hacc res hres
              simp only [List.foldlM_nil] at hres
              cases hres
              exact ⟨Extends.refl h0, hwf0, hacc⟩
            | cons x rest ihl =>
              intro h0 acc hwf0 hext0 hl hacc res hres
              rw [List.foldlM_cons] at hres
              cases hcx : deepcopy cf h0 x with
              | none =>
                rw [hcx] at hres
                simp at hres
              | some r =>
                rw [hcx] at hres
                simp only [Option.bind_eq_bind', Option.some_bind'] at hres
                obtain ⟨h2, y⟩ := r
                obtain ⟨hext2, hwf2, hby, hfy⟩ := ih h0 x h2 y hwf0
                  (bnd_mono hext0.1 x (hl x (by simp))) hcx
                have hacc2 : ∀ z ∈ acc ++ [y], HVal.bnd h2.next z = true ∧
                    ∀ rf b, b ∈ reachL rf h2 z → h.next ≤ b := by
                  intro z hz
                  rcases List.mem_append.mp hz with hm | hm
                  · have h1 := hacc z hm
                    refine ⟨bnd_mono hext2.1 z h1.1, ?_⟩
                    intro rf b hb
                    rw [(reach_render_ext rf h0 h2 z hext2 hwf0 h1.1).1] at hb
                    exact h1.2 rf b hb
                  · rw [List.mem_singleton.mp hm]
                    refine ⟨hby, ?_⟩
                    intro rf b hb
                    exact Nat.le_trans hext0.1 (hfy rf b hb)
                obtain ⟨he3, hwf3, hys3⟩ := ihl h2 (acc ++ [y]) hwf2
                  (Extends.trans hext0 hext2)
                  (fun z hz => hl z (by simp [hz])) hacc2 res hres
                exact ⟨Extends.trans hext2 he3, hwf3, hys3⟩
          cases hfold : xs.foldlM (fun acc x => (deepcopy cf acc.1 x).bind
              (fun r => some (r.1, acc.2 ++ [r.2]))) (h, ([] : List HVal)) with
          | none =>
            rw [hfold] at hc
            cases hc
          | some res =>
            rw [hfold] at hc
            simp only [Option.some_bind'] at hc
            cases hc
            obtain ⟨h1, ys⟩ := res
            obtain ⟨hext1, hwf1, hys⟩ := foldSpec xs h [] hwf (Extends.refl h) hxs
              (by intro y hy; cases hy) (h1, ys) hfold
            have hbndl : HObj.bnd h1.next (.list ys) = true := by
              simp only [HObj.bnd, List.all_eq_true]
              exact fun y hy => (hys y hy).1
            refine ⟨Extends.trans hext1 (extends_alloc h1 (.list ys)),
              WF_alloc h1 (.list ys) hwf1 hbndl, ?_, ?_⟩
            · simp [HVal.bnd, Heap.alloc]
            · intro rf b hb
              cases rf with
              | zero =>
                rw [reachL_zero] at hb
                cases hb
              | succ rf =>
                rw [reachL_addr,
                  get_alloc_new h1 (.list ys) hwf1] at hb
                rcases List.mem_cons.mp hb with hm | hm
                · rw [hm]
                  exact hext1.1
                · obtain ⟨ra, hra, hbra⟩ := List.mem_flatten.mp hm
                  obtain ⟨y, hy, hye⟩ := List.mem_map.mp hra
                  subst hye
                  rw [(reach_render_ext rf h1 (h1.alloc (.list ys)).1 y
                    (extends_alloc h1 (.list ys)) hwf1 (hys y hy).1).1] at hbra
                  exact (hys y hy).2 rf b hbra
        | dict kvs =>
          simp only [Option.some_bind'] at hc
          have hxs : ∀ kv ∈ kvs, HVal.bnd h.next kv.2 = true := by
            simpa [HObj.bnd, List.all_eq_true] using hob
          have foldSpec : ∀ (l : List (String × HVal)) (h0 : Heap)
              (acc : List (String × HVal)),
              Heap.WF h0 → Extends h h0 →
              (∀ kv ∈ l, HVal.bnd h.next kv.2 = true) →
              (∀ y ∈ acc, HVal.bnd h0.next y.2 = true ∧
                ∀ rf b, b ∈ reachL rf h0 y.2 → h.next ≤ b) →
              ∀ res, l.foldlM (fun acc kv => (deepcopy cf acc.1 kv.2).bind
                  (fun r => some (r.1, acc.2 ++ [(kv.1, r.2)]))) (h0, acc) = some res →
              Extends h0 res.1 ∧ Heap.WF res.1 ∧
              ∀ y ∈ res.2, HVal.bnd res.1.next y.2 = true ∧
                ∀ rf b, b ∈ reachL rf res.1 y.2 → h.next ≤ b := by
            intro l
            induction l with
            | nil =>
              intro h0 acc hwf0 _ _ hacc res hres
              simp only [List.foldlM_nil] at hres
              cases hres
              exact ⟨Extends.refl h0, hwf0, hacc⟩
            | cons kv rest ihl =>
              intro h0 acc hwf0 hext0 hl hacc res hres
              rw [List.foldlM_cons] at hres
              cases hcx : deepcopy cf h0 kv.2 with
              | none =>
                rw [hcx] at hres
                simp at hres
              | some r =>
                rw [hcx] at hres
                simp only [Option.bind_eq_bind', Option.some_bind'] at hres
                obtain ⟨h2, y⟩ := r
                obtain ⟨hext2, hwf2, hby, hfy⟩ := ih h0 kv.2 h2 y hwf0
                  (bnd_mono hext0.1 kv.2 (hl kv (by simp))) hcx
                have hacc2 : ∀ z ∈ acc ++ [(kv.1, y)], HVal.bnd h2.next z.2 = true ∧
                    ∀ rf b, b ∈ reachL rf h2 z.2 → h.next ≤ b := by
                  intro z hz
                  rcases List.mem_append.mp hz with hm | hm
                  · have h1 := hacc z hm
                    refine ⟨bnd_mono hext2.1 z.2 h1.1, ?_⟩
                    intro rf b hb
                    rw [(reach_render_ext rf h0 h2 z.2 hext2 hwf0 h1.1).1] at hb
                    exact h1.2 rf b hb
                  · rw [List.mem_singleton.mp hm]
                    refine ⟨hby, ?_⟩
                    intro rf b hb
                    exact Nat.le_trans hext0.1 (hfy rf b hb)
                obtain ⟨he3, hwf3, hys3⟩ := ihl h2 (acc ++ [(kv.1, y)]) hwf2
                  (Extends.trans hext0 hext2)
                  (fun z hz => hl z (by simp [hz])) hacc2 res hres
                exact ⟨Extends.trans hext2 he3, hwf3, hys3⟩
          cases hfold : kvs.foldlM (fun acc kv => (deepcopy cf acc.1 kv.2).bind
              (fun r => some (r.1, acc.2 ++ [(kv.1, r.2)])))
              (h, ([] : List (String × HVal))) with
          | none =>
            rw [hfold] at hc
            cases hc
          | some res =>
            rw [hfold] at hc
            simp only [Option.some_bind'] at hc
            cases hc
            obtain ⟨h1, ys⟩ := res
            obtain ⟨hext1, hwf1, hys⟩ := foldSpec kvs h [] hwf (Extends.refl h) hxs
              (by intro y hy; cases hy) (h1, ys) hfold
            have hbndl : HObj.bnd h1.next (.dict ys) = true := by
              simp only [HObj.bnd, List.all_eq_true]
              exact fun y hy => (hys y hy).1
            refine ⟨Extends.trans hext1 (extends_alloc h1 (.dict ys)),
              WF_alloc h1 (.dict ys) hwf1 hbndl, ?_, ?_⟩
            · simp [HVal.bnd, Heap.alloc]
            · intro rf b hb
              cases rf with
              | zero =>
                rw [reachL_zero] at hb
                cases hb
              | succ rf =>
                rw [reachL_addr,
                  get_alloc_new h1 (.dict ys) hwf1] at hb
                rcases List.mem_cons.mp hb with hm | hm
                · rw [hm]
                  exact hext1.1
                · obtain ⟨ra, hra, hbra⟩ := List.mem_flatten.mp hm
                  obtain ⟨y, hy, hye⟩ := List.mem_map.mp hra
                  subst hye
                  rw [(reach_render_ext rf h1 (h1.alloc (.dict ys)).1 y.2
                    (extends_alloc h1 (.dict ys)) hwf1 (hys y hy).1).1] at hbra
                  exact (hys y hy).2 rf b hbra

def lookupH : List (String × HVal) → String → Option HVal
  | [], _ => none
  | (k', v) :: rest, k => if k' = k then some v else lookupH rest k

def setKeyH : List (String × HVal) → String → HVal → List (String × HVal)
  | [], k, v => [(k, v)]
  | (k', v') :: rest, k, v =>
    if k' = k then (k', v) :: rest else (k', v') :: setKeyH rest k v

/-- `isinstance(x, (list, tuple))` on a heap value. -/
def isListH (h : Heap) : HVal → Bool
  | .addr a =>
    match h.get a with
    | some (.list _) => true
    | _ => false
  | _ => false

/-- `list(x)` on a heap value: the elements of a list cell, the keys of a
dict cell, the characters of a string; a number raises. -/
def pyToListH (h : Heap) : HVal → Option (List HVal)
  | .addr a =>
    (h.get a).bind (fun o =>
      match o with
      | .list xs => some xs
      | .dict kvs => some (kvs.map (fun kv => HVal.str kv.1)))
  | .str s => some (s.data.map (fun c => HVal.str (String.mk [c])))
  | .num _ => none

/-- One iteration of the `merge_base` loop on the heap: the source value is
deep-copied first, then stored for a missing key, skipped when equal, merged
into a freshly allocated list when either side is a list, and otherwise the
destination value is kept (the Python `==` test is the external parameter
`eqTest`). -/
def hMergeStep (eqTest : Heap → HVal → HVal → Option Bool) (cf : Nat)
    (acc : Heap × List (String × HVal)) (kv : String × HVal) :
    Option (Heap × List (String × HVal)) :=
  (deepcopy cf acc.1 kv.2).bind (fun r =>
    match lookupH acc.2 kv.1 with
    | none => some (r.1, setKeyH acc.2 kv.1 r.2)
    | some dv =>
      (eqTest r.1 dv r.2).bind (fun eq =>
        if eq then some (r.1, acc.2)
        else if isListH r.1 dv || isListH r.1 r.2 then
          (pyToListH r.1 dv).bind (fun l1 =>
            (pyToListH r.1 r.2).bind (fun l2 =>
              some ((r.1.alloc (.list (l1 ++ l2))).1,
                setKeyH acc.2 kv.1 (.addr r.1.next))))
        else some (r.1, acc.2)))

/-- The merge loop of `merge_base` (page.py lines 752-770) on the heap. -/
def hMergeBase (eqTest : Heap → HVal → HVal → Option Bool) (cf : Nat)
    (h : Heap) (data base : List (String × HVal)) :
    Option (Heap × List (String × HVal)) :=
  base.foldlM (hMergeStep eqTest cf) (h, data)

/-- Rendering a finalized entry: every field rendered from the heap. -/
def renderEntry (rf : Nat) (h : Heap) (d : List (String × HVal)) : Option Dict :=
  d.mapM (fun kv => (render rf h kv.2).bind (fun w => some (kv.1, w)))

theorem lookupH_mem : ∀ (d : List (String × HVal)) (k : String) (v : HVal),
    lookupH d k = some v → (k, v) ∈ d := by
  intro d
  induction d with
  | nil => intro k v hc; cases hc
  | cons kv rest ih =>
    intro k v hc
    obtain ⟨k', v'⟩ := kv
    rw [show lookupH ((k', v') :: rest) k
        = if k' = k then some v' else lookupH rest k from rfl] at hc
    by_cases he : k' = k
    · rw [if_pos he] at hc
      cases hc
      subst he
      simp
    · rw [if_neg he] at hc
      exact List.mem_cons_of_mem _ (ih k v hc)

theorem mem_setKeyH : ∀ (d : List (String × HVal)) (k : String) (v : HVal)
    (kv' : String × HVal), kv' ∈ setKeyH d k v → kv' ∈ d ∨ kv' = (k, v) := by
  intro d
  induction d with
  | nil =>
    intro k v kv' h
    rcases List.mem_singleton.mp h with h
    exact Or.inr h
  | cons kv rest ih =>
    intro k v kv' h
    obtain ⟨k', v'⟩ := kv
    rw [show setKeyH ((k', v') :: rest) k v
        = if k' = k then (k', v) :: rest else (k', v') :: setKeyH rest k v from rfl] at h
    by_cases he : k' = k
    · rw [if_pos he] at h
      rcases List.mem_cons.mp h with hm | hm
      · subst he
        exact Or.inr hm
      · exact Or.inl (List.mem_cons_of_mem _ hm)
    · rw [if_neg he] at h
      rcases List.mem_cons.mp h with hm | hm
      · exact Or.inl (hm ▸ List.mem_cons_self _ _)
      · rcases ih k v kv' hm with hm' | hm'
        · exact Or.inl (List.mem_cons_of_mem _ hm')
        · exact Or.inr hm'

/-- The elements delivered by `list(x)` are bounded and avoid every address
`x` itself avoids. -/
theorem pyToListH_elems (h : Heap) (dv : HVal) (l : List HVal) (b : Nat)
    (hwf : Heap.WF h) (hbv : HVal.bnd h.next dv = true)
    (hnr : ∀ rf, b ∉ reachL rf h dv)
    (hpl : pyToListH h dv = some l) :
    ∀ x ∈ l, HVal.bnd h.next x = true ∧ ∀ rf, b ∉ reachL rf h x := by
  cases dv with
  | num n => cases hpl
  | str s =>
    cases hpl
    intro x hx
    obtain ⟨c, _, hc⟩ := List.mem_map.mp hx
    subst hc
    refine ⟨rfl, ?_⟩
    intro rf
    rw [reachL_str_all]
    simp
  | addr a =>
    rw [show pyToListH h (.addr a) = (h.get a).bind (fun o =>
        match o with
        | .list xs => some xs
        | .dict kvs => some (kvs.map (fun kv => HVal.str kv.1))) from rfl] at hpl
    cases hgo : h.get a with
    | none =>
      rw [hgo] at hpl
      cases hpl
    | some o =>
      rw [hgo, Option.some_bind'] at hpl
      have hob := WF_get_bnd h a o hwf hgo
      cases o with
      | list xs =>
        cases hpl
        intro x hx
        refine ⟨by
          simp only [HObj.bnd, List.all_eq_true] at hob
          exact hob x hx, ?_⟩
        intro rf hbx
        refine hnr (rf + 1) ?_
        rw [reachL_addr, hgo]
        exact List.mem_cons_of_mem _ (List.mem_flatten.mpr
          ⟨reachL rf h x, List.mem_map.mpr ⟨x, hx, rfl⟩, hbx⟩)
      | dict kvs =>
        cases hpl
        intro x hx
        obtain ⟨kv, _, hc⟩ := List.mem_map.mp hx
        subst hc
        refine ⟨rfl, ?_⟩
        intro rf
        rw [reachL_str_all]
        simp

/-- The merge loop preserves well-formedness, only extends the heap, and
keeps every destination value bounded and clear of any pre-existing address
the destination did not already reach. -/
theorem hMergeFold_inv (eqTest : Heap → HVal → HVal → Option Bool) (cf : Nat)
    (h : Heap) (b : Nat) (hb : b < h.next) :
    ∀ (base : List (String × HVal)) (h0 : Heap) (data0 : List (String × HVal)),
      Heap.WF h0 → Extends h h0 →
      (∀ kv ∈ base, HVal.bnd h.next kv.2 = true) →
      (∀ kv ∈ data0, HVal.bnd h0.next kv.2 = true ∧ ∀ rf, b ∉ reachL rf h0 kv.2) →
      ∀ res, base.foldlM (hMergeStep eqTest cf) (h0, data0) = some res →
      Heap.WF res.1 ∧ Extends h0 res.1 ∧
      (∀ kv ∈ res.2, HVal.bnd res.1.next kv.2 = true ∧
        ∀ rf, b ∉ reachL rf res.1 kv.2) := by
  intro base
  induction base with
  | nil =>
    intro h0 data0 hwf0 _ _ hdata res hres
    simp only [List.foldlM_nil] at hres
    cases hres
    exact ⟨hwf0, Extends.refl h0, hdata⟩
  | cons kv rest ih =>
    intro h0 data0 hwf0 hext0 hbase hdata res hres
    rw [List.foldlM_cons] at hres
    cases hstep : hMergeStep eqTest cf (h0, data0) kv with
    | none =>
      rw [hstep] at hres
      simp at hres
    | some st1 =>
      rw [hstep] at hres
      simp only [Option.bind_eq_bind', Option.some_bind'] at hres
      obtain ⟨h1, data1⟩ := st1
      have hstep1 : Heap.WF h1 ∧ Extends h0 h1 ∧
          (∀ kv' ∈ data1, HVal.bnd h1.next kv'.2 = true ∧
            ∀ rf, b ∉ reachL rf h1 kv'.2) := by
        unfold hMergeStep at hstep
        cases hdc : deepcopy cf h0 kv.2 with
        | none =>
          rw [hdc] at hstep
          cases hstep
        | some r =>
          rw [hdc, Option.some_bind'] at hstep
          obtain ⟨h2, v'⟩ := r
          obtain ⟨hext2, hwf2, hbv', hfv'⟩ := deepcopy_spec cf h0 kv.2 h2 v' hwf0
            (bnd_mono hext0.1 kv.2 (hbase kv (by simp))) hdc
          have hbnext : b < h0.next := Nat.lt_of_lt_of_le hb hext0.1
          have hv'nr : ∀ rf, b ∉ reachL rf h2 v' := by
            intro rf hbx
            exact absurd (hfv' rf b hbx) (Nat.not_le_of_lt hbnext)
          have hdata2 : ∀ kv' ∈ data0, HVal.bnd h2.next kv'.2 = true ∧
              ∀ rf, b ∉ reachL rf h2 kv'.2 := by
            intro kv' hm
            have h1' := hdata kv' hm
            refine ⟨bnd_mono hext2.1 kv'.2 h1'.1, ?_⟩
            intro rf
            rw [(reach_render_ext rf h0 h2 kv'.2 hext2 hwf0 h1'.1).1]
            exact h1'.2 rf
          cases hlk : lookupH data0 kv.1 with
          | none =>
            rw [hlk] at hstep
            cases hstep
            refine ⟨hwf2, hext2, ?_⟩
            intro kv' hm
            rcases mem_setKeyH data0 kv.1 v' kv' hm with hm' | hm'
            · exact hdata2 kv' hm'
            · rw [hm']
              exact ⟨hbv', hv'nr⟩
          | some dv =>
            rw [hlk] at hstep
            dsimp only at hstep
            cases heq : eqTest h2 dv v' with
            | none =>
              rw [heq] at hstep
              cases hstep
            | some eqb =>
              rw [heq, Option.some_bind'] at hstep
              have hdv := hdata2 (kv.1, dv) (lookupH_mem data0 kv.1 dv hlk)
              cases eqb with
              | true =>
                rw [if_pos rfl] at hstep
                cases hstep
                exact ⟨hwf2, hext2, hdata2⟩
              | false =>
                rw [if_neg (by simp)] at hstep
                by_cases hil : (isListH h2 dv || isListH h2 v') = true
                · rw [if_pos hil] at hstep
                  cases hl1 : pyToListH h2 dv with
                  | none =>
                    rw [hl1] at hstep
                    cases hstep
                  | some l1 =>
                    rw [hl1, Option.some_bind'] at hstep
                    cases hl2 : pyToListH h2 v' with
                    | none =>
                      rw [hl2] at hstep
                      cases hstep
                    | some l2 =>
                      rw [hl2, Option.some_bind'] at hstep
                      cases hstep
                      have hel1 := pyToListH_elems h2 dv l1 b hwf2 hdv.1 hdv.2 hl1
                      have hel2 := pyToListH_elems h2 v' l2 b hwf2 hbv' hv'nr hl2
                      have hobj : HObj.bnd h2.next (.list (l1 ++ l2)) = true := by
                        simp only [HObj.bnd, List.all_eq_true]
                        intro x hx
                        rcases List.mem_append.mp hx with hm | hm
                        · exact (hel1 x hm).1
                        · exact (hel2 x hm).1
                      have hwf3 := WF_alloc h2 (.list (l1 ++ l2)) hwf2 hobj
                      have hext3 := extends_alloc h2 (.list (l1 ++ l2))
                      refine ⟨hwf3, Extends.trans hext2 hext3, ?_⟩
                      intro kv' hm
                      rcases mem_setKeyH data0 kv.1 (.addr h2.next) kv' hm with hm' | hm'
                      · have h2' := hdata2 kv' hm'
                        refine ⟨bnd_mono hext3.1 kv'.2 h2'.1, ?_⟩
                        intro rf
                        rw [(reach_render_ext rf h2 (h2.alloc (.list (l1 ++ l2))).1
                          kv'.2 hext3 hwf2 h2'.1).1]
                        exact h2'.2 rf
                      · rw [hm']
                        refine ⟨by simp [HVal.bnd, Heap.alloc], ?_⟩
                        intro rf hbx
                        cases rf with
                        | zero =>
                          rw [reachL_zero] at hbx
                          cases hbx
                        | succ rf =>
                          rw [reachL_addr,
                            get_alloc_new h2 (.list (l1 ++ l2)) hwf2] at hbx
                          rcases List.mem_cons.mp hbx with hm'' | hm''
                          · exact absurd hm''
                              (Nat.ne_of_lt (Nat.lt_of_lt_of_le hbnext hext2.1))
                          · obtain ⟨ra, hra, hbra⟩ := List.mem_flatten.mp hm''
                            obtain ⟨x, hx, hxe⟩ := List.mem_map.mp hra
                            subst hxe
                            have hxb : HVal.bnd h2.next x = true := by
                              rcases List.mem_append.mp hx with hm3 | hm3
                              · exact (hel1 x hm3).1
                              · exact (hel2 x hm3).1
                            rw [(reach_render_ext rf h2
                              (h2.alloc (.list (l1 ++ l2))).1 x hext3 hwf2 hxb).1] at hbra
                            rcases List.mem_append.mp hx with hm3 | hm3
                            · exact (hel1 x hm3).2 rf hbra
                            · exact (hel2 x hm3).2 rf hbra
                · rw [if_neg hil] at hstep
                  cases hstep
                  exact ⟨hwf2, hext2, hdata2⟩
      obtain ⟨hwf1, hext1, hdata1⟩ := hstep1
      obtain ⟨hwfr, hextr, hdatar⟩ := ih h1 data1 hwf1 (Extends.trans hext0 hext1)
        (fun kv' hm => hbase kv' (by simp [hm])) hdata1 res hres
      exact ⟨hwfr, Extends.trans hext1 hextr, hdatar⟩

/-- C3: the merge loop of `merge_base` never aliases a mutable container
between the source scope and the finalized entry: every stored value is
deep-copied first, so mutating any pre-existing container the destination
did not already reach — in particular any container of the merged-in source
scope — leaves the finalized entry's rendered content unchanged. -/
theorem C3_merge_never_aliases (eqTest : Heap → HVal → HVal → Option Bool)
    (cf : Nat) (h : Heap) (data base : List (String × HVal))
    (h' : Heap) (data' : List (String × HVal)) (b : Nat) (o : HObj)
    (hwf : Heap.WF h)
    (hdb : ∀ kv ∈ data, HVal.bnd h.next kv.2 = true)
    (hbb : ∀ kv ∈ base, HVal.bnd h.next kv.2 = true)
    (hmerge : hMergeBase eqTest cf h data base = some (h', data'))
    (hold : b < h.next)
    (hnr : ∀ kv ∈ data, ∀ rf, b ∉ reachL rf h kv.2) :
    ∀ rf, renderEntry rf (h'.set b o) data' = renderEntry rf h' data' := by
  intro rf
  obtain ⟨hwf', hext', hdata'⟩ := hMergeFold_inv eqTest cf h b hold base h data
    hwf (Extends.refl h) hbb
    (fun kv hm => ⟨hdb kv hm, hnr kv hm⟩)
    (h', data') hmerge
  unfold renderEntry
  exact mapM_congr_mem _ _ data' (fun kv hm => by
    rw [render_set_of_not_reach rf h' kv.2 b o ((hdata' kv hm).2 rf)])

/-- C3 witness: merging an etymology-scope list into a finalized entry copies
the list; mutating the source scope's original list cell afterwards leaves
the entry's rendering unchanged. -/
theorem C3_merge_never_aliases_witness :
    renderEntry 3
        ((⟨[(0, HObj.list []), (1, HObj.list [])], 2⟩ : Heap).set 0
          (HObj.list [HVal.str "mutated"]))
        [("pos", HVal.str "noun"), ("etymology_templates", HVal.addr 1)]
      = renderEntry 3 (⟨[(0, HObj.list []), (1, HObj.list [])], 2⟩ : Heap)
        [("pos", HVal.str "noun"), ("etymology_templates", HVal.addr 1)] := by
  have hdc : deepcopy 3 (⟨[(0, HObj.list [])], 1⟩ : Heap) (HVal.addr 0)
      = some (⟨[(0, HObj.list []), (1, HObj.list [])], 2⟩, HVal.addr 1) := by
    rw [deepcopy_addr]
    rw [show (⟨[(0, HObj.list [])], 1⟩ : Heap).get 0 = some (HObj.list []) from rfl]
    rw [Option.some_bind']
    rfl
  have hstep : hMergeStep (fun _ _ _ => some false) 3
      (⟨[(0, HObj.list [])], 1⟩, [("pos", HVal.str "noun")])
      ("etymology_templates", HVal.addr 0)
      = some (⟨[(0, HObj.list []), (1, HObj.list [])], 2⟩,
        [("pos", HVal.str "noun"), ("etymology_templates", HVal.addr 1)]) := by
    unfold hMergeStep
    rw [show (((⟨[(0, HObj.list [])], 1⟩ : Heap), [("pos", HVal.str "noun")]).1) =
      (⟨[(0, HObj.list [])], 1⟩ : Heap) from rfl]
    rw [show (("etymology_templates", HVal.addr 0) : String × HVal).2 = HVal.addr 0 from rfl]
    rw [hdc, Option.some_bind']
    rfl
  exact C3_merge_never_aliases (fun _ _ _ => some false) 3
    ⟨[(0, HObj.list [])], 1⟩
    [("pos", HVal.str "noun")]
    [("etymology_templates", HVal.addr 0)]
    ⟨[(0, HObj.list []), (1, HObj.list [])], 2⟩
    [("pos", HVal.str "noun"), ("etymology_templates", HVal.addr 1)]
    0 (HObj.list [HVal.str "mutated"])
    (by unfold Heap.WF; decide) (by decide) (by decide)
    (by
      unfold hMergeBase
      rw [List.foldlM_cons, hstep, Option.bind_eq_bind', Option.some_bind']
      rfl)
    (by decide)
    (by
      intro kv hkv rf
      have hk : kv = ("pos", HVal.str "noun") := by simpa using hkv
      rw [hk]
      rw [show (("pos", HVal.str "noun") : String × HVal).2 = HVal.str "noun" from rfl]
      rw [reachL_str_all]
      simp)
    3

/-!
## The single-child collapse of `parse_sense_node` (C8)

Reduced model of `parse_sense_node` / `process_gloss_contents` for gloss list
items whose cleaned contents are a plain gloss text (no qualifiers, examples,
templates or `form-of` parsing; those run through external collaborators and
do not affect the collapse path).  A sense is reduced to its gloss list; the
fields threaded are the scratch `sense_data`, the accumulated `pos_datas`,
and the (mutated) `sense_base` gloss list.  Crucially, the collapse branch of
`parse_sense_node` parses the cropped outer node first, resets `sense_data`,
and then parses the inner item with the same — already mutated —
`sense_base`, while the ordinary subentry loop hands each child a copy.
-/

/-- The gloss-relevant accumulator: the open scratch sense and the pushed
senses of the current part-of-speech section, each reduced to its glosses. -/
structure GState where
  sense_data : List String
  pos_datas : List (List String)
  deriving DecidableEq, Repr

/-- A gloss list item: its cleaned text contents and its sublists of
subentries (each a list of child items). -/
inductive GNode where
  | item (contents : String) (sublists : List (List GNode))
  deriving Repr

/-- `push_sense()` reduced to glosses: push and clear when the scratch sense
has a gloss, else report `False` and change nothing. -/
def pushSenseG (st : GState) : GState × Bool :=
  if st.sense_data = [] then (st, false)
  else ({ sense_data := [], pos_datas := st.pos_datas ++ [st.sense_data] }, false || true)

mutual

/-- `parse_sense_node` on a gloss list item: the single-child collapse branch
crops the node, parses it, resets the scratch sense, and re-parses the lone
nested item against the same `sense_base`; otherwise the contents go to
`process_gloss_contents`.  Results are (state, mutated sense base, added). -/
def parseSenseNode (fuel : Nat) (node : GNode) (base : List String)
    (st : GState) : GState × List String × Bool :=
  match fuel, node with
  | 0, _ => (st, base, false)
  | fuel + 1, GNode.item contents sublists =>
    match sublists with
    | [[inner]] =>
      let r1 := parseSenseNode fuel (GNode.item contents []) base st
      let r2 := parseSenseNode fuel inner r1.2.1 { r1.1 with sense_data := [] }
      (r2.1, r2.2.1, r1.2.2 || r2.2.2)
    | _ => processGlossContents fuel contents base sublists st

/-- `process_gloss_contents` reduced to the gloss path: an empty cleaned text
returns `False`; otherwise the raw gloss is appended to the sense base, the
subentries are parsed recursively (each against a copy of the base), an
`added` child short-circuits, and otherwise the sense base's glosses are
copied into the scratch sense, the gloss appended if missing, and the sense
pushed. -/
def processGlossContents (fuel : Nat) (rawgloss : String) (base : List String)
    (subs : List (List GNode)) (st : GState) : GState × List String × Bool :=
  match fuel with
  | 0 => (st, base, false)
  | fuel + 1 =>
    if rawgloss = "" then (st, base, false)
    else
      let base1 := base ++ [rawgloss]
      let r := processSubentries fuel subs base1 st
      if r.2 then (r.1, base1, true)
      else
        let pr1 := pushSenseG r.1
        let sd0 := pr1.1.sense_data ++ base1
        let sd1 := if rawgloss ∈ sd0 then sd0 else sd0 ++ [rawgloss]
        let pr2 := pushSenseG { pr1.1 with sense_data := sd1 }
        (pr2.1, base1, pr1.2 || pr2.2)

/-- The subentry loop of `process_gloss_contents` over the sublists. -/
def processSubentries (fuel : Nat) (subs : List (List GNode))
    (base : List String) (st : GState) : GState × Bool :=
  match fuel, subs with
  | _, [] => (st, false)
  | 0, _ :: _ => (st, false)
  | fuel + 1, sub :: rest =>
    let r := processItems fuel sub base st
    let r2 := processSubentries fuel rest base r.1
    (r2.1, r.2 || r2.2)

/-- The item loop inside one sublist: each child gets a deep copy of the
sense base, so its mutations are dropped. -/
def processItems (fuel : Nat) (items : List GNode) (base : List String)
    (st : GState) : GState × Bool :=
  match fuel, items with
  | _, [] => (st, false)
  | 0, _ :: _ => (st, false)
  | fuel + 1, item :: rest =>
    let r := parseSenseNode fuel item base st
    let r2 := processItems fuel rest base r.1
    (r2.1, r.2.2 || r2.2)

end

/-- A leaf item with a non-empty gloss pushes exactly one sense consisting of
the (mutated) base glosses. -/
theorem parseSenseNode_leaf (k : Nat) (txt : String) (base : List String)
    (st : GState) (htxt : ¬(txt = "")) (hsd : st.sense_data = []) :
    parseSenseNode (k + 2) (GNode.item txt []) base st
      = (⟨[], st.pos_datas ++ [base ++ [txt]]⟩, base ++ [txt], true) := by
  rw [show parseSenseNode (k + 2) (GNode.item txt []) base st
      = processGlossContents (k + 1) txt base [] st from rfl]
  rw [show processGlossContents (k + 1) txt base [] st
      = (if txt = "" then (st, base, false)
        else
          let base1 := base ++ [txt]
          let r := processSubentries k [] base1 st
          if r.2 then (r.1, base1, true)
          else
            let pr1 := pushSenseG r.1
            let sd0 := pr1.1.sense_data ++ base1
            let sd1 := if txt ∈ sd0 then sd0 else sd0 ++ [txt]
            let pr2 := pushSenseG { pr1.1 with sense_data := sd1 }
            (pr2.1, base1, pr1.2 || pr2.2)) from rfl]
  rw [if_neg htxt]
  dsimp only
  rw [show processSubentries k [] (base ++ [txt]) st = (st, false) from by
    cases k <;> rfl]
  simp only [Bool.false_eq_true, if_false]
  rw [show pushSenseG st = (st, false) from by unfold pushSenseG; rw [if_pos hsd]]
  dsimp only
  rw [hsd]
  simp [pushSenseG]

/-- C8 (counterexample): the outer gloss `ripe` with the single nested item
`very ripe` produces two sense records — the outer sense with glosses
`[ripe]` is pushed by the cropped parse, and the inner parse then pushes a
sense with glosses `[ripe, very ripe]` because the outer gloss was already
appended to the shared sense base — not one combined sense. -/
theorem C8_counterexample :
    (parseSenseNode 3 (GNode.item "ripe" [[GNode.item "very ripe" []]])
        [] ⟨[], []⟩).1.pos_datas
      = [["ripe"], ["ripe", "very ripe"]] ∧
    (parseSenseNode 3 (GNode.item "ripe" [[GNode.item "very ripe" []]])
        [] ⟨[], []⟩).1.pos_datas
      ≠ [["ripe", "very ripe"]] := by
  decide

/-- C8 (corrected): on a gloss item with exactly one sub-list holding exactly
one child, the collapse branch first parses the cropped outer node — pushing
a sense with the outer gloss — resets the scratch sense, and re-parses the
nested item against the same mutated sense base, pushing a second sense whose
glosses are the outer gloss followed by the inner gloss; the result is two
sense records, not one. -/
theorem C8_single_child_collapse (k : Nat) (out inn : String)
    (base : List String) (st : GState)
    (hout : ¬(out = "")) (hinn : ¬(inn = "")) (hsd : st.sense_data = []) :
    parseSenseNode (k + 3) (GNode.item out [[GNode.item inn []]]) base st
      = (⟨[], st.pos_datas ++ [base ++ [out], (base ++ [out]) ++ [inn]]⟩,
        (base ++ [out]) ++ [inn], true) := by
  rw [show parseSenseNode (k + 3) (GNode.item out [[GNode.item inn []]]) base st
      = (let r1 := parseSenseNode (k + 2) (GNode.item out []) base st
        let r2 := parseSenseNode (k + 2) (GNode.item inn []) r1.2.1
          { r1.1 with sense_data := [] }
        (r2.1, r2.2.1, r1.2.2 || r2.2.2)) from rfl]
  dsimp only
  rw [parseSenseNode_leaf k out base st hout hsd]
  dsimp only
  rw [parseSenseNode_leaf k inn (base ++ [out])
    ⟨[], st.pos_datas ++ [base ++ [out]]⟩ hinn rfl]
  simp

/-- C8 witness: the corrected statement at the concrete outer gloss `ripe`
and inner gloss `very ripe`. -/
theorem C8_single_child_collapse_witness :
    parseSenseNode 3 (GNode.item "ripe" [[GNode.item "very ripe" []]]) [] ⟨[], []⟩
      = (⟨[], [["ripe"], ["ripe", "very ripe"]]⟩, ["ripe", "very ripe"], true) :=
  C8_single_child_collapse 0 "ripe" "very ripe" [] ⟨[], []⟩
    (by decide) (by decide) rfl

/-!
## The Chinese translation handler (C10)

`process_translation_list_item` of `zh/translation.py` scans a list item's
children, building one `Translation` record at a time; a `multitrans`
template re-enters `extract_translation`, whose appends again all go through
`process_translation_list_item`, so the per-item invariant covers it.  The
external collaborators `name_to_code`/`code_to_name` and the cleaned texts
are parameters of the model.
-/

/-- The `Translation` model of `zh/models.py`, restricted to its fields
touched by `process_translation_list_item`. -/
structure ZhTranslation where
  word : String
  lang : String
  lang_code : String
  sense : String
  roman : String
  alt : String
  lit : String
  tags : List String
  deriving DecidableEq, Repr

/-- The kinds of children `process_translation_list_item` reacts to: a string
ending in a colon naming the language, a translation template (`t`, `t+`,
`tt`, `tt+`, `t-check`, `t+check`, `t-needed`) with its cleaned parameters
and gender tags, any other (qualifier) template, and a plain link. -/
inductive ZhChild where
  | langText (lang : String)
  | transTemplate (langCodeParam word roman alt lit : String) (genderTags : List String)
  | qualifier (tag : String)
  | link (word : String)
  deriving DecidableEq, Repr

/-- `str.strip("()")`. -/
def stripParens (s : String) : String :=
  String.mk (((s.data.dropWhile (fun c => c = '(' || c = ')')).reverse.dropWhile
    (fun c => c = '(' || c = ')')).reverse)

/-- `Translation(word="", lang=..., lang_code=..., sense=sense)`: the fresh
record built after an append and at the start of the loop. -/
def emptyTr (lang langCode sense : String) : ZhTranslation :=
  ⟨"", lang, langCode, sense, "", "", "", []⟩

/-- The record under construction after the guarded flush at the start of the
translation-template and link branches: flushed and re-initialized when its
word is non-empty, untouched otherwise. -/
def zhFlushTr (sense : String) (tr : ZhTranslation) : ZhTranslation :=
  if tr.word.length > 0 then emptyTr tr.lang tr.lang_code sense else tr

/-- The appended list after the guarded flush. -/
def zhFlushOut (out : List ZhTranslation) (tr : ZhTranslation) : List ZhTranslation :=
  if tr.word.length > 0 then out ++ [tr] else out

/-- One child of the loop body of `process_translation_list_item`: the
accumulator is the list of appended translations plus the record under
construction. -/
def zhStep (nameToCode codeToName : String → String) (sense : String)
    (acc : List ZhTranslation × ZhTranslation) :
    ZhChild → List ZhTranslation × ZhTranslation
  | .langText lang =>
      (acc.1, {acc.2 with lang := lang, lang_code := nameToCode lang})
  | .transTemplate cp word roman alt lit gtags =>
      let out := zhFlushOut acc.1 acc.2
      let tr0 := zhFlushTr sense acc.2
      let tr1 := if tr0.lang_code = "" then {tr0 with lang_code := cp} else tr0
      let tr2 := if tr1.lang = "" then {tr1 with lang := codeToName tr1.lang_code} else tr1
      (out, {tr2 with word := word, roman := roman, alt := alt, lit := lit, tags := tr2.tags ++ gtags})
  | .qualifier tag =>
      if tag.length > 0 then (acc.1, {acc.2 with tags := acc.2.tags ++ [stripParens tag]})
      else acc
  | .link word =>
      (zhFlushOut acc.1 acc.2, {zhFlushTr sense acc.2 with word := word})

/-- `process_translation_list_item`: fold the children, then append the final
record only if its word was filled. -/
def processTranslationListItem (nameToCode codeToName : String → String)
    (sense : String) (children : List ZhChild) : List ZhTranslation :=
  let res := children.foldl (zhStep nameToCode codeToName sense)
    ([], ⟨"", "", "", sense, "", "", "", []⟩)
  if res.2.word.length > 0 then res.1 ++ [res.2] else res.1

theorem word_ne_empty_of_length_pos (s : String) (h : s.length > 0) : s ≠ "" := by
  intro hc
  subst hc
  simp at h

/-- The guarded flush preserves the all-words-non-empty invariant. -/
theorem zhFlushOut_inv (out : List ZhTranslation) (tr : ZhTranslation)
    (hout : ∀ t ∈ out, t.word ≠ "") :
    ∀ t ∈ zhFlushOut out tr, t.word ≠ "" := by
  intro t ht
  unfold zhFlushOut at ht
  by_cases hw : tr.word.length > 0
  · rw [if_pos hw] at ht
    rcases List.mem_append.mp ht with h | h
    · exact hout t h
    · rw [List.mem_singleton.mp h]
      exact word_ne_empty_of_length_pos tr.word hw
  · rw [if_neg hw] at ht
    exact hout t ht

/-- One `zhStep` preserves the all-words-non-empty invariant of the appended
list: every append site is guarded by `len(tr_data.word) > 0`. -/
theorem zhStep_inv (nameToCode codeToName : String → String) (sense : String)
    (out : List ZhTranslation) (tr : ZhTranslation) (c : ZhChild)
    (hout : ∀ t ∈ out, t.word ≠ "") :
    ∀ t ∈ (zhStep nameToCode codeToName sense (out, tr) c).1, t.word ≠ "" := by
  cases c with
  | langText lang => exact hout
  | transTemplate cp word roman alt lit gtags =>
    exact zhFlushOut_inv out tr hout
  | qualifier tag =>
    intro t ht
    by_cases hl : tag.length > 0
    · rw [show (zhStep nameToCode codeToName sense (out, tr) (ZhChild.qualifier tag)).1
          = (if tag.length > 0 then (out, {tr with tags := tr.tags ++ [stripParens tag]}) else (out, tr)).1 from rfl,
        if_pos hl] at ht
      exact hout t ht
    · rw [show (zhStep nameToCode codeToName sense (out, tr) (ZhChild.qualifier tag)).1
          = (if tag.length > 0 then (out, {tr with tags := tr.tags ++ [stripParens tag]}) else (out, tr)).1 from rfl,
        if_neg hl] at ht
      exact hout t ht
  | link word =>
    exact zhFlushOut_inv out tr hout

/-- The whole child loop preserves the invariant. -/
theorem zhStep_fold_invariant (nameToCode codeToName : String → String)
    (sense : String) :
    ∀ (children : List ZhChild) (acc : List ZhTranslation × ZhTranslation),
      (∀ t ∈ acc.1, t.word ≠ "") →
      ∀ t ∈ (children.foldl (zhStep nameToCode codeToName sense) acc).1,
        t.word ≠ "" := by
  intro children
  induction children with
  | nil =>
    intro acc hout t ht
    exact hout t ht
  | cons c rest ih =>
    intro acc hout t ht
    rw [List.foldl_cons] at ht
    exact ih (zhStep nameToCode codeToName sense acc c)
      (zhStep_inv nameToCode codeToName sense acc.1 acc.2 c hout) t ht

/-- C10: every Translation record `process_translation_list_item` appends has
a non-empty word: the in-loop appends are guarded by `len(tr_data.word) > 0`,
and a record whose word was never filled is discarded by the final guard
instead of being appended. -/
theorem C10_nonempty_translation_words (nameToCode codeToName : String → String)
    (sense : String) (children : List ZhChild) :
    ∀ t ∈ processTranslationListItem nameToCode codeToName sense children,
      t.word ≠ "" := by
  intro t ht
  unfold processTranslationListItem at ht
  have hinv := zhStep_fold_invariant nameToCode codeToName sense children
    ([], ⟨"", "", "", sense, "", "", "", []⟩) (by intro t' ht'; cases ht')
  by_cases hw : ((children.foldl (zhStep nameToCode codeToName sense)
      ([], ⟨"", "", "", sense, "", "", "", []⟩)).2).word.length > 0
  · rw [if_pos hw] at ht
    rcases List.mem_append.mp ht with h | h
    · exact hinv t h
    · rw [List.mem_singleton.mp h]
      exact word_ne_empty_of_length_pos _ hw
  · rw [if_neg hw] at ht
    exact hinv t ht

/-- C10 witness: the invariant at a concrete list item producing the records
`cat` and `dog`. -/
theorem C10_nonempty_translation_words_witness :
    (⟨"cat", "English", "en", "s", "", "", "", []⟩ : ZhTranslation).word ≠ "" :=
  C10_nonempty_translation_words (fun _ => "en") (fun _ => "English") "s"
    [ZhChild.langText "English", ZhChild.transTemplate "en" "cat" "" "" "" [],
      ZhChild.link "dog"]
    ⟨"cat", "English", "en", "s", "", "", "", []⟩ (by decide)

end Wx
